import Mathlib

/-!
Verification development for the objcurses terminal 3-D renderer.

Scalar model: the C++ `float` values are embedded as exact rationals `ℚ`.
The sources under verification are `src/main.cpp`, `src/utils/tools.cpp`
(with its header) and `src/entities/rendering/buffer.h`.  Function bodies
declared in `buffer.h` but implemented in a translation unit that is not
part of the source tree, and the camera/configuration code, are modelled
from the specification; each such definition carries a doc comment that
says so.
-/

namespace Objcurses

/-- The value of `std::numeric_limits<float>::max()`, i.e. `(2 - 2^-23) * 2^127`,
as an exact rational.  Used by the default `Pixel` constructor in
`src/entities/rendering/buffer.h` line 25. -/
def floatMax : ℚ := (2 ^ 24 - 1) * 2 ^ 104

/-- 3-D vector of floats (`Vec3` from the math utilities), modelled over ℚ. -/
structure Vec3 where
  x : ℚ
  y : ℚ
  z : ℚ
deriving DecidableEq

/-- Screen pixel, from `src/entities/rendering/buffer.h` lines 19–27:
a depth, a display character and an optional material index. -/
structure Pixel where
  z : ℚ
  c : Char
  material : Option ℤ
deriving DecidableEq

/-- The default `Pixel` constructor (`buffer.h` line 25): depth is the
float maximum (the "infinitely far" sentinel), the character is a blank
and there is no material index. -/
def Pixel.empty : Pixel := ⟨floatMax, ' ', none⟩

/-- Projection of a triangle onto the screen, from `buffer.h` lines 30–41:
three vertices (screen x, y and a depth in `z`) plus a display character. -/
structure Projection where
  p1 : Vec3
  p2 : Vec3
  p3 : Vec3
  color : Char
deriving DecidableEq

/-- Order two vertices by ascending screen x. -/
def sortPair (a b : Vec3) : Vec3 × Vec3 :=
  if a.x ≤ b.x then (a, b) else (b, a)

/-- Modelled from the spec: `Projection::sort_x` (its implementation is not
in `src/`): "returns an equivalent triangle with vertices ordered by
ascending screen-space x". -/
def Projection.sort_x (q : Projection) : Projection :=
  let s1 := sortPair q.p1 q.p2
  let s2 := sortPair s1.2 q.p3
  let s3 := sortPair s1.1 s2.1
  ⟨s3.1, s3.2, s2.2, q.color⟩

/-- Linear interpolation of y along the edge from `p` to `q`, evaluated at
screen x-coordinate `x` (division by zero in ℚ yields 0 on a vertical edge). -/
def edgeY (p q : Vec3) (x : ℚ) : ℚ :=
  p.y + (q.y - p.y) * (x - p.x) / (q.x - p.x)

/-- Modelled from the spec: `Projection::limit_y1` (implementation not in
`src/`): for an x inside the triangle's x-span, "linearly interpolate along
the two triangle edges that are active at that x", returning the lower
y bound of the triangle at that column. -/
def Projection.limit_y1 (q : Projection) (x : ℚ) : ℚ :=
  let s := q.sort_x
  let yLong := edgeY s.p1 s.p3 x
  let yShort := if x ≤ s.p2.x then edgeY s.p1 s.p2 x else edgeY s.p2 s.p3 x
  min yLong yShort

/-- Modelled from the spec: `Projection::limit_y2` (implementation not in
`src/`): the upper y bound of the triangle at column x. -/
def Projection.limit_y2 (q : Projection) (x : ℚ) : ℚ :=
  let s := q.sort_x
  let yLong := edgeY s.p1 s.p3 x
  let yShort := if x ≤ s.p2.x then edgeY s.p1 s.p2 x else edgeY s.p2 s.p3 x
  max yLong yShort

/-- Modelled from the spec: `Projection::normal` (implementation not in
`src/`): "computes the triangle's face normal in screen space via the cross
product of two edge vectors". -/
def Projection.normal (q : Projection) : Vec3 :=
  let u : Vec3 := ⟨q.p2.x - q.p1.x, q.p2.y - q.p1.y, q.p2.z - q.p1.z⟩
  let v : Vec3 := ⟨q.p3.x - q.p1.x, q.p3.y - q.p1.y, q.p3.z - q.p1.z⟩
  ⟨u.y * v.z - u.z * v.y, u.z * v.x - u.x * v.z, u.x * v.y - u.y * v.x⟩

/-- Screen buffer, from `buffer.h` lines 44–62: character dimensions,
logical dimensions, logical character size, and the pixel vector. -/
structure Buffer where
  x : ℕ
  y : ℕ
  logical_x : ℚ
  logical_y : ℚ
  dx : ℚ
  dy : ℚ
  pixels : List Pixel
deriving DecidableEq

/-- Modelled from the spec: the `Buffer` constructor (implementation not in
`src/`): a grid of `x * y` default pixels together with the logical-to-cell
scale factors `dx`, `dy` ("logical character size"). -/
def Buffer.create (x y : ℕ) (lx ly : ℚ) : Buffer :=
  ⟨x, y, lx, ly, lx / (x : ℚ), ly / (y : ℚ), List.replicate (x * y) Pixel.empty⟩

/-- Logical x-coordinate of the centre of column `i` (the buffer's mapping
between logical space and grid cells, modelled from the spec's "mapping
between a logical coordinate space and grid cell indices"). -/
def Buffer.colCoord (b : Buffer) (i : ℕ) : ℚ :=
  (i : ℚ) * b.dx + b.dx / 2 - b.logical_x / 2

/-- Logical y-coordinate of the centre of row `j`. -/
def Buffer.rowCoord (b : Buffer) (j : ℕ) : ℚ :=
  (j : ℚ) * b.dy + b.dy / 2 - b.logical_y / 2

/-- Modelled from the spec: `Buffer::index_x` (implementation not in
`src/`): the column index whose cell contains logical x-coordinate `rx`. -/
def Buffer.index_x (b : Buffer) (rx : ℚ) : ℤ :=
  ⌊(rx + b.logical_x / 2) / b.dx⌋

/-- Modelled from the spec: `Buffer::index_y` (implementation not in
`src/`). -/
def Buffer.index_y (b : Buffer) (ry : ℚ) : ℤ :=
  ⌊(ry + b.logical_y / 2) / b.dy⌋

/-- Clamp an integer index into `[lo, hi]`. -/
def clampIdx (lo hi v : ℤ) : ℤ := max lo (min v hi)

/-- Modelled from the spec: the cell-coverage test of
`Buffer::draw_projection` (implementation not in `src/`): "clamps the
triangle's x-span to the buffer's column range; for each covered column,
computes the y-span via `limit_y1`/`limit_y2`, clamps it to the buffer's
row range".  Cell `k` holds column `k % x` of row `k / x`. -/
def Buffer.covers (b : Buffer) (q : Projection) (k : ℕ) : Bool :=
  let i : ℤ := (k % b.x : ℕ)
  let j : ℤ := (k / b.x : ℕ)
  let s := q.sort_x
  let c1 := clampIdx 0 ((b.x : ℤ) - 1) (b.index_x s.p1.x)
  let c2 := clampIdx 0 ((b.x : ℤ) - 1) (b.index_x s.p3.x)
  let xg := b.colCoord (k % b.x)
  let r1 := clampIdx 0 ((b.y : ℤ) - 1) (b.index_y (q.limit_y1 xg))
  let r2 := clampIdx 0 ((b.y : ℤ) - 1) (b.index_y (q.limit_y2 xg))
  decide (c1 ≤ i) && decide (i ≤ c2) && decide (r1 ≤ j) && decide (j ≤ r2)

/-- Modelled from the spec: `Buffer::depth` (implementation not in `src/`):
"the triangle's plane equation evaluated at that pixel's logical
coordinates using the precomputed normal and one known vertex". -/
def Buffer.depth (b : Buffer) (q : Projection) (k : ℕ) : ℚ :=
  let n := q.normal
  let xg := b.colCoord (k % b.x)
  let yg := b.rowCoord (k / b.x)
  q.p1.z - (n.x * (xg - q.p1.x) + n.y * (yg - q.p1.y)) / n.z

/-- One cell's depth-test update: overwrite with `(d, c, material)` exactly
when the cell is covered and `d` is strictly below the stored depth. -/
def updateCell (cov : Bool) (d : ℚ) (c : Char) (m : ℤ) (p : Pixel) : Pixel :=
  if cov = true ∧ d < p.z then ⟨d, c, some m⟩ else p

/-- Modelled from the spec: `Buffer::draw_projection` (implementation not
in `src/`).  The source loop visits each covered cell exactly once and
conditionally overwrites it, so it is expressed as a per-cell map over the
pixel vector. -/
def Buffer.draw_projection (b : Buffer) (q : Projection) (c : Char) (m : ℤ) : Buffer :=
  { b with pixels := b.pixels.mapIdx fun k p => updateCell (b.covers q k) (b.depth q k) c m p }

/-- Modelled from the spec: `Buffer::clear` (implementation not in `src/`):
"resets every cell to the empty sentinel (infinite depth, blank character,
no material)". -/
def Buffer.clear (b : Buffer) : Buffer :=
  { b with pixels := b.pixels.map fun _ => Pixel.empty }

/-- A 1×1 test buffer used by concrete witnesses. -/
def wBuf : Buffer := Buffer.create 1 1 2 2

/-- A flat test triangle at depth 1 covering the whole logical plane. -/
def wTri1 : Projection := ⟨⟨-10, -10, 1⟩, ⟨10, -10, 1⟩, ⟨0, 10, 1⟩, '#'⟩

/-- A flat test triangle at depth 2 covering the whole logical plane. -/
def wTri2 : Projection := ⟨⟨-10, -10, 2⟩, ⟨10, -10, 2⟩, ⟨0, 10, 2⟩, '*'⟩

/-! ### Numeric token parsing (`src/utils/tools.cpp`)

`safe_stoi` and `safe_stof` wrap `std::stoi`/`std::stof`: they return the
parsed value when the conversion consumed the entire token and was in range,
and `none` when the library reported no conversion, an out-of-range value, or
the conversion stopped early.  The library functions themselves are embedded
below following the C `strtol`/`strtof` semantics.  `std::stoi(s, &pos, 10)`
is `strtol` in base 10: leading whitespace, optional sign, decimal digits.
`std::stof` is `strtof`, which accepts four classes of subject sequence after
the whitespace and optional sign: a decimal mantissa with an optional
`e`/`E` exponent; a hexadecimal mantissa introduced by `0x`/`0X` with an
optional `p`/`P` binary exponent; the case-insensitive spelling `inf` or
`infinity`; and the case-insensitive spelling `nan`, optionally followed by a
parenthesised alphanumeric-or-underscore sequence.  Finite values are kept
exact over ℚ (rounding to `float` is not modelled), infinities and NaN are
explicit constructors of `FloatVal`.  Underflow is modelled as not raising
`ERANGE` — C11 7.22.1.3 leaves that choice implementation-defined — so tiny
finite results stay exact instead of being rejected. -/

/-- The C locale whitespace test (`isspace`). -/
def isSpaceCh (c : Char) : Bool :=
  c = ' ' || c = '\t' || c = '\n' || c = '\x0b' || c = '\x0c' || c = '\r'

/-- The decimal digit test. -/
def isDigitCh (c : Char) : Bool := '0' ≤ c && c ≤ '9'

/-- Whether a character list begins with the given character. -/
def headIs (l : List Char) (c : Char) : Bool :=
  match l with
  | x :: _ => x = c
  | [] => false

/-- The natural number spelt by a list of decimal digits. -/
def digitsToNat (ds : List Char) : ℕ :=
  ds.foldl (fun a c => 10 * a + (c.toNat - 48)) 0

/-- Outcome of a C++ string-to-number conversion: a value together with the
index one past the last consumed character, or one of the two exceptions. -/
inductive CppNum (α : Type) where
  | ok (v : α) (pos : ℕ)
  | invalid
  | range
deriving DecidableEq

/-- `std::stoi(s, &pos, 10)`: skip whitespace, optional sign, base-10
digits; no digits is `invalid_argument`, a value outside `int` is
`out_of_range`. -/
def stoiModel (s : List Char) : CppNum ℤ :=
  let w := s.takeWhile isSpaceCh
  let t := s.dropWhile isSpaceCh
  let neg := headIs t '-'
  let hasSign := headIs t '-' || headIs t '+'
  let t2 := t.drop (if hasSign then 1 else 0)
  let ds := t2.takeWhile isDigitCh
  if ds = [] then .invalid
  else
    let v : ℤ := (if neg then -1 else 1) * (digitsToNat ds : ℤ)
    if v < -(2 ^ 31) ∨ 2 ^ 31 - 1 < v then .range
    else .ok v (w.length + (if hasSign then 1 else 0) + ds.length)

/-- `safe_stoi` from `src/utils/tools.cpp` lines 7–19: the conversion value
when it exists and `pos` equals the token size, `nullopt` otherwise (both
exceptions are caught). -/
def safe_stoi (s : String) : Option ℤ :=
  match stoiModel s.data with
  | .ok v pos => if pos = s.data.length then some v else none
  | _ => none

/-- The exponent tail of `strtof` after `e`/`E`: optional sign, then
digits; `none` (nothing consumed) when no digit follows. -/
def expTail (r : List Char) : Option (ℤ × ℕ) :=
  let eneg := headIs r '-'
  let eSign := headIs r '-' || headIs r '+'
  let r2 := r.drop (if eSign then 1 else 0)
  let eds := r2.takeWhile isDigitCh
  if eds = [] then none
  else some ((if eneg then -1 else 1) * (digitsToNat eds : ℤ),
    1 + (if eSign then 1 else 0) + eds.length)

/-- The optional exponent of `strtof`: `e`/`E` followed by a signed digit
string, consumed only when the digits are present. -/
def expParse (t5 : List Char) : Option (ℤ × ℕ) :=
  match t5 with
  | c :: r => if c = 'e' ∨ c = 'E' then expTail r else none
  | [] => none

/-- The optional fractional part of `strtof`: a dot followed by digits;
returns the fractional digits, the remaining characters and the number of
characters consumed. -/
def fracParse (t3 : List Char) : List Char × List Char × ℕ :=
  match t3 with
  | c :: r =>
    if c = '.' then (r.takeWhile isDigitCh, r.dropWhile isDigitCh,
      1 + (r.takeWhile isDigitCh).length)
    else ([], t3, 0)
  | [] => ([], [], 0)

/-- The value of a `float`: a finite value kept exact over ℚ, a signed
infinity, or NaN (whose sign is immaterial and not recorded). -/
inductive FloatVal where
  | fin (q : ℚ)
  | inf (neg : Bool)
  | nan
deriving DecidableEq

/-- ASCII lower-casing (`tolower` in the C locale). -/
def lowerCh (c : Char) : Char :=
  if 'A' ≤ c ∧ c ≤ 'Z' then Char.ofNat (c.toNat + 32) else c

/-- Whether the list begins with the given pattern, compared
case-insensitively. -/
def lcPrefix : List Char → List Char → Bool
  | [], _ => true
  | _ :: _, [] => false
  | p :: ps, c :: cs => (lowerCh c = p) && lcPrefix ps cs

/-- The hexadecimal digit test (`isxdigit`). -/
def isHexDigit (c : Char) : Bool :=
  isDigitCh c || ('a' ≤ c && c ≤ 'f') || ('A' ≤ c && c ≤ 'F')

/-- The value of a hexadecimal digit. -/
def hexVal (c : Char) : ℕ :=
  if isDigitCh c then c.toNat - 48
  else if 'a' ≤ c ∧ c ≤ 'f' then c.toNat - 87
  else c.toNat - 55

/-- The natural number spelt by a list of hexadecimal digits. -/
def hexToNat (ds : List Char) : ℕ :=
  ds.foldl (fun a c => 16 * a + hexVal c) 0

/-- A character allowed in the parenthesised suffix of a `nan` spelling:
digits, letters and the underscore. -/
def isNanChar (c : Char) : Bool :=
  isDigitCh c || ('a' ≤ c && c ≤ 'z') || ('A' ≤ c && c ≤ 'Z') || c = '_'

/-- The infinity spellings of `strtof`, case-insensitive, after the sign:
`infinity` when it is present in full, otherwise `inf`; returns the number
of characters consumed. -/
def infParse (t2 : List Char) : Option ℕ :=
  if lcPrefix ['i', 'n', 'f', 'i', 'n', 'i', 't', 'y'] t2 then some 8
  else if lcPrefix ['i', 'n', 'f'] t2 then some 3
  else none

/-- The NaN spellings of `strtof`, case-insensitive, after the sign: `nan`,
optionally followed by a parenthesised alphanumeric-or-underscore sequence;
a malformed parenthesis suffix leaves only `nan` consumed. -/
def nanParse (t2 : List Char) : Option ℕ :=
  if lcPrefix ['n', 'a', 'n'] t2 then
    match t2.drop 3 with
    | c :: r =>
      if c = '(' then
        match r.dropWhile isNanChar with
        | c2 :: _ =>
          if c2 = ')' then some (5 + (r.takeWhile isNanChar).length) else some 3
        | [] => some 3
      else some 3
    | [] => some 3
  else none

/-- The optional hexadecimal fractional part: a dot followed by hexadecimal
digits; returns the fractional digits, the remaining characters and the
number of characters consumed. -/
def hexFracParse (t3 : List Char) : List Char × List Char × ℕ :=
  match t3 with
  | c :: r =>
    if c = '.' then (r.takeWhile isHexDigit, r.dropWhile isHexDigit,
      1 + (r.takeWhile isHexDigit).length)
    else ([], t3, 0)
  | [] => ([], [], 0)

/-- The optional binary exponent of a hexadecimal float: `p`/`P` followed by
a signed decimal digit string, consumed only when the digits are present. -/
def pExpParse (t5 : List Char) : Option (ℤ × ℕ) :=
  match t5 with
  | c :: r => if c = 'p' ∨ c = 'P' then expTail r else none
  | [] => none

/-- The hexadecimal form of `strtof` after the sign: `0x`/`0X`, hexadecimal
digits with an optional fractional part (at least one digit overall), and an
optional `p`/`P` binary exponent; `none` when the shape is absent (then the
decimal parse applies, e.g. `0x` alone converts as the decimal `0`).
Returns the unsigned value and the number of characters consumed. -/
def hexParse (t2 : List Char) : Option (ℚ × ℕ) :=
  match t2 with
  | c0 :: c1 :: r =>
    if c0 = '0' ∧ (c1 = 'x' ∨ c1 = 'X') then
      let hi := r.takeWhile isHexDigit
      let t3 := r.dropWhile isHexDigit
      let fr := hexFracParse t3
      if hi = [] ∧ fr.1 = [] then none
      else
        let eTry := pExpParse fr.2.1
        let e : ℤ := (eTry.map Prod.fst).getD 0
        some ((hexToNat (hi ++ fr.1) : ℚ) * 2 ^ (e - 4 * (fr.1.length : ℤ)),
          2 + hi.length + fr.2.2 + (eTry.map Prod.snd).getD 0)
    else none
  | _ => none

/-- `std::stof(s, &pos)`: skip whitespace and an optional sign, then try the
four subject-sequence classes of `strtof` — the infinity spellings, the NaN
spellings, the hexadecimal form, and otherwise the decimal form: digits with
an optional fractional part (at least one digit overall) and an optional
`e`/`E` exponent consumed only when exponent digits follow.  A finite
magnitude beyond the float maximum is `out_of_range`; no conversion at all
is `invalid_argument`. -/
def stofModel (s : List Char) : CppNum FloatVal :=
  let w := s.takeWhile isSpaceCh
  let t := s.dropWhile isSpaceCh
  let neg := headIs t '-'
  let hasSign := headIs t '-' || headIs t '+'
  let t2 := t.drop (if hasSign then 1 else 0)
  match infParse t2 with
  | some n => .ok (FloatVal.inf neg) (w.length + (if hasSign then 1 else 0) + n)
  | none =>
  match nanParse t2 with
  | some n => .ok FloatVal.nan (w.length + (if hasSign then 1 else 0) + n)
  | none =>
  match hexParse t2 with
  | some (q, n) =>
    let v : ℚ := (if neg then -1 else 1) * q
    if floatMax < v ∨ v < -floatMax then .range
    else .ok (FloatVal.fin v) (w.length + (if hasSign then 1 else 0) + n)
  | none =>
    let ipart := t2.takeWhile isDigitCh
    let t3 := t2.dropWhile isDigitCh
    let fr := fracParse t3
    if ipart = [] ∧ fr.1 = [] then .invalid
    else
      let eTry := expParse fr.2.1
      let e : ℤ := (eTry.map Prod.fst).getD 0
      let pos := w.length + (if hasSign then 1 else 0) + ipart.length + fr.2.2 +
        (eTry.map Prod.snd).getD 0
      let v : ℚ := (if neg then -1 else 1) *
        ((digitsToNat (ipart ++ fr.1) : ℚ) * 10 ^ (e - (fr.1.length : ℤ)))
      if floatMax < v ∨ v < -floatMax then .range
      else .ok (FloatVal.fin v) pos

/-- `safe_stof` from `src/utils/tools.cpp` lines 21–33. -/
def safe_stof (s : String) : Option FloatVal :=
  match stofModel s.data with
  | .ok v pos => if pos = s.data.length then some v else none
  | _ => none

/-! Claim-side token grammars, read off the claim's words: "the entire
string is a valid in-range base-10 integer (respectively float)". -/

/-- Every character of the list is whitespace. -/
def SpaceList (l : List Char) : Prop := ∀ c ∈ l, isSpaceCh c = true

/-- Every character of the list is a decimal digit. -/
def DigitList (l : List Char) : Prop := ∀ c ∈ l, isDigitCh c = true

/-- An optional sign, together with the negativity it denotes. -/
def SignList (g : List Char) (neg : Bool) : Prop :=
  (g = [] ∧ neg = false) ∨ (g = ['+'] ∧ neg = false) ∨ (g = ['-'] ∧ neg = true)

/-- The whole string `s` spells the base-10 integer `v`: optional leading
whitespace, an optional sign, one or more decimal digits, and nothing else. -/
def IsIntToken (s : String) (v : ℤ) : Prop :=
  ∃ w g ds neg, s.data = w ++ g ++ ds ∧ SpaceList w ∧ SignList g neg ∧
    ds ≠ [] ∧ DigitList ds ∧ v = (if neg then -1 else 1) * (digitsToNat ds : ℤ)

/-- The `int` range check of `std::stoi`. -/
def intInRange (v : ℤ) : Prop := -(2 ^ 31) ≤ v ∧ v ≤ 2 ^ 31 - 1

/-- The mantissa `m` of a decimal float literal with integer digits `i` and
fractional digits `f`: either plain digits or digits, a dot, and more digits,
with at least one digit overall. -/
def MantissaPart (m i f : List Char) : Prop :=
  DigitList i ∧ DigitList f ∧ ¬(i = [] ∧ f = []) ∧
    ((m = i ∧ f = []) ∨ m = i ++ '.' :: f)

/-- The exponent suffix `ex` of a decimal float literal, denoting the
integer exponent `e`: either absent, or `e`/`E`, an optional sign, and one
or more digits. -/
def ExpPart (ex : List Char) (e : ℤ) : Prop :=
  (ex = [] ∧ e = 0) ∨
  ∃ ec g eds eneg, (ec = 'e' ∨ ec = 'E') ∧ SignList g eneg ∧ eds ≠ [] ∧
    DigitList eds ∧ ex = ec :: (g ++ eds) ∧
    e = (if eneg then -1 else 1) * (digitsToNat eds : ℤ)

/-- The whole string `s` spells the base-10 float of value `v`. -/
def IsFloatToken (s : String) (v : ℚ) : Prop :=
  ∃ w g m i f ex neg e, s.data = w ++ g ++ m ++ ex ∧ SpaceList w ∧
    SignList g neg ∧ MantissaPart m i f ∧ ExpPart ex e ∧
    v = (if neg then -1 else 1) *
      ((digitsToNat (i ++ f) : ℚ) * 10 ^ (e - (f.length : ℤ)))

/-- The float range check: magnitude at most the float maximum. -/
def floatInRange (v : ℚ) : Prop := -floatMax ≤ v ∧ v ≤ floatMax

/-- Every character of the list is a hexadecimal digit. -/
def HexDigitList (l : List Char) : Prop := ∀ c ∈ l, isHexDigit c = true

/-- The list spells the given (lower-case) pattern, case-insensitively. -/
def SpellsCI (l pat : List Char) : Prop := l.map lowerCh = pat

/-- The hexadecimal mantissa `m` with integer digits `hi` and fractional
digits `hf`: either plain hexadecimal digits or digits, a dot, and more
digits, with at least one digit overall. -/
def HexMantissa (m hi hf : List Char) : Prop :=
  HexDigitList hi ∧ HexDigitList hf ∧ ¬(hi = [] ∧ hf = []) ∧
    ((m = hi ∧ hf = []) ∨ m = hi ++ '.' :: hf)

/-- The binary-exponent suffix `ex` of a hexadecimal float literal, denoting
the integer exponent `e`: either absent, or `p`/`P`, an optional sign, and
one or more decimal digits. -/
def PExpPart (ex : List Char) (e : ℤ) : Prop :=
  (ex = [] ∧ e = 0) ∨
  ∃ pc g eds eneg, (pc = 'p' ∨ pc = 'P') ∧ SignList g eneg ∧ eds ≠ [] ∧
    DigitList eds ∧ ex = pc :: (g ++ eds) ∧
    e = (if eneg then -1 else 1) * (digitsToNat eds : ℤ)

/-- The whole string `s` spells the hexadecimal float of value `v`:
whitespace, optional sign, `0x`/`0X`, a hexadecimal mantissa and an optional
binary exponent, and nothing else. -/
def IsHexFloatToken (s : String) (v : ℚ) : Prop :=
  ∃ w g xc m ex neg hi hf e, s.data = w ++ g ++ ('0' :: xc :: m) ++ ex ∧
    SpaceList w ∧ SignList g neg ∧ (xc = 'x' ∨ xc = 'X') ∧
    HexMantissa m hi hf ∧ PExpPart ex e ∧
    v = (if neg then -1 else 1) *
      ((hexToNat (hi ++ hf) : ℚ) * 2 ^ (e - 4 * (hf.length : ℤ)))

/-- The whole string `s` spells an infinity of sign `neg`: whitespace,
optional sign, and a case-insensitive `inf` or `infinity`, nothing else. -/
def IsInfToken (s : String) (neg : Bool) : Prop :=
  ∃ w g seq, s.data = w ++ g ++ seq ∧ SpaceList w ∧ SignList g neg ∧
    (SpellsCI seq ['i', 'n', 'f'] ∨
      SpellsCI seq ['i', 'n', 'f', 'i', 'n', 'i', 't', 'y'])

/-- The whole string `s` spells a NaN: whitespace, optional sign, a
case-insensitive `nan`, and optionally a parenthesised
alphanumeric-or-underscore sequence, nothing else. -/
def IsNanToken (s : String) : Prop :=
  ∃ w g neg n3 rest, s.data = w ++ g ++ (n3 ++ rest) ∧ SpaceList w ∧
    SignList g neg ∧ SpellsCI n3 ['n', 'a', 'n'] ∧
    (rest = [] ∨ ∃ inner, rest = '(' :: (inner ++ [')']) ∧
      ∀ c ∈ inner, isNanChar c = true)

/-- The whole string `s` is a token `std::stof` converts in full to the
float value `fv`: a finite in-range decimal or hexadecimal literal, an
infinity spelling, or a NaN spelling. -/
def IsCFloatToken (s : String) (fv : FloatVal) : Prop :=
  (∃ v, fv = FloatVal.fin v ∧ (IsFloatToken s v ∨ IsHexFloatToken s v) ∧
    floatInRange v) ∨
  (∃ neg, fv = FloatVal.inf neg ∧ IsInfToken s neg) ∨
  (fv = FloatVal.nan ∧ IsNanToken s)

/-! ### Command-line parsing (`src/main.cpp` lines 102–225) -/

/-- The options record `Args` from `src/main.cpp` lines 102–115.  The
defaults `ANIMATION_STEP` and `ZOOM_START` live in `config.h`, which is not
in `src/`, so they enter as parameters of `Args.init`. -/
structure Args where
  input_file : String
  color_support : Bool
  static_light : Bool
  flip_faces : Bool
  invert_x : Bool
  invert_y : Bool
  invert_z : Bool
  animate : Bool
  speed : FloatVal
  zoom : FloatVal
deriving DecidableEq

/-- The default-initialised `Args` (`src/main.cpp` lines 102–115); the
defaults `ANIMATION_STEP` and `ZOOM_START` are finite constants. -/
def Args.init (animation_step zoom_start : ℚ) : Args :=
  ⟨"", false, false, false, false, false, false, false,
    FloatVal.fin animation_step, FloatVal.fin zoom_start⟩

/-- The first character of an argument (`arg[0]`).  Indexing an empty
`string_view` is undefined behaviour in the source; the model returns a
blank for the empty string. -/
def strHead (s : String) : Char := s.data.headD ' '

/-- The option-processing loop of `parse_args` (`src/main.cpp` lines
117–225) over the remaining arguments (`argv[1..]`), including the final
missing-input-file check; `Except.error code` models `std::exit(code)`. -/
def parseLoop (a : Args) : List String → Except ℕ Args
  | [] =>
    if a.input_file = "" then .error 1 else .ok a
  | arg :: rest =>
    if arg = "-h" ∨ arg = "--help" then .error 0
    else if arg = "-v" ∨ arg = "--version" then .error 0
    else if arg = "-c" ∨ arg = "--color" then
      parseLoop { a with color_support := true } rest
    else if arg = "-l" ∨ arg = "--light" then
      parseLoop { a with static_light := true } rest
    else if arg = "-a" ∨ arg = "--animate" then
      match rest with
      | v :: rest2 =>
        if strHead v ≠ '-' then
          match safe_stof v with
          | none => .error 1
          | some sp => parseLoop { a with animate := true, speed := sp } rest2
        else parseLoop { a with animate := true } (v :: rest2)
      | [] => parseLoop { a with animate := true } []
    else if arg = "-z" ∨ arg = "--zoom" then
      match rest with
      | [] => .error 1
      | v :: rest2 =>
        match safe_stof v with
        | none => .error 1
        | some z => parseLoop { a with zoom := z } rest2
    else if arg = "--flip" then parseLoop { a with flip_faces := true } rest
    else if arg = "--invert-x" then parseLoop { a with invert_x := true } rest
    else if arg = "--invert-y" then parseLoop { a with invert_y := true } rest
    else if arg = "--invert-z" then parseLoop { a with invert_z := true } rest
    else if strHead arg ≠ '-' then
      if a.input_file ≠ "" then .error 1
      else parseLoop { a with input_file := arg } rest
    else .error 1

/-- `parse_args` from `src/main.cpp` lines 117–225, applied to the argument
list without the program name. -/
def parse_args (animation_step zoom_start : ℚ) (argv : List String) : Except ℕ Args :=
  parseLoop (Args.init animation_step zoom_start) argv

/-! ### Camera (modelled from the spec; the camera source is not in `src/`) -/

/-- Modelled from the spec: the camera configuration constants of
`config.h` (not in `src/`): default rotation step, altitude clamp boundary
(strictly inside ±90°), zoom step and minimum zoom.  Angles are in degrees
so that the arithmetic stays exact. -/
structure CamCfg where
  rotate_step : ℚ
  altitude_limit : ℚ
  zoom_step : ℚ
  zoom_min : ℚ
deriving DecidableEq

/-- Camera state: two orbit angles (degrees) and the zoom scalar. -/
structure Camera where
  azimuth : ℚ
  altitude : ℚ
  zoom : ℚ
deriving DecidableEq

/-- Modelled from the spec: the `Camera` constructor used at `src/main.cpp`
line 318 (`Camera cam(args.zoom)`). -/
def Camera.init (zoom : ℚ) : Camera := ⟨0, 0, zoom⟩

/-- Modelled from the spec: `rotate_left(delta)` — adds the delta to the
azimuth, which is left unbounded (periodic). -/
def Camera.rotate_left (cam : Camera) (delta : ℚ) : Camera :=
  { cam with azimuth := cam.azimuth + delta }

/-- Modelled from the spec: `rotate_right(delta)`. -/
def Camera.rotate_right (cam : Camera) (delta : ℚ) : Camera :=
  { cam with azimuth := cam.azimuth - delta }

/-- Modelled from the spec: `rotate_up(delta)` — "adds delta to altitude,
clamped to an interval strictly inside ±90°". -/
def Camera.rotate_up (cam : Camera) (cfg : CamCfg) (delta : ℚ) : Camera :=
  { cam with altitude := max (-cfg.altitude_limit) (min (cam.altitude + delta) cfg.altitude_limit) }

/-- Modelled from the spec: `rotate_down(delta)`. -/
def Camera.rotate_down (cam : Camera) (cfg : CamCfg) (delta : ℚ) : Camera :=
  { cam with altitude := max (-cfg.altitude_limit) (min (cam.altitude - delta) cfg.altitude_limit) }

/-- Modelled from the spec: `zoom_in()` — a fixed step, no upper clamp. -/
def Camera.zoom_in (cam : Camera) (cfg : CamCfg) : Camera :=
  { cam with zoom := cam.zoom + cfg.zoom_step }

/-- Modelled from the spec: `zoom_out()` — a fixed step, "clamped to a
strictly positive minimum". -/
def Camera.zoom_out (cam : Camera) (cfg : CamCfg) : Camera :=
  { cam with zoom := max (cam.zoom - cfg.zoom_step) cfg.zoom_min }

/-- A vertical-rotation request with its (default or caller-supplied)
angular delta. -/
inductive TiltOp where
  | up (delta : ℚ)
  | down (delta : ℚ)
deriving DecidableEq

/-- Apply one vertical rotation. -/
def applyTilt (cfg : CamCfg) (cam : Camera) : TiltOp → Camera
  | .up d => cam.rotate_up cfg d
  | .down d => cam.rotate_down cfg d

/-- Apply a sequence of vertical rotations. -/
def applyTilts (cfg : CamCfg) (cam : Camera) (ops : List TiltOp) : Camera :=
  ops.foldl (applyTilt cfg) cam

/-- A zoom keypress. -/
inductive ZoomOp where
  | zin
  | zout
deriving DecidableEq

/-- Apply one zoom step. -/
def applyZoom (cfg : CamCfg) (cam : Camera) : ZoomOp → Camera
  | .zin => cam.zoom_in cfg
  | .zout => cam.zoom_out cfg

/-- Apply a sequence of zoom steps. -/
def applyZooms (cfg : CamCfg) (cam : Camera) (ops : List ZoomOp) : Camera :=
  ops.foldl (applyZoom cfg) cam

/-! ### Color registration (`src/main.cpp` lines 44–65) and `printw` -/

/-- A material: a diffuse reflectance color (geometry model). -/
structure Material where
  diffuse : Vec3
deriving DecidableEq

/-- The registration loop of `init_colors`: for material index `i` the pair
number is `i + 1`; the loop breaks as soon as the pair number reaches
`COLORS` or `COLOR_PAIRS`.  Returns the registered pair numbers in order. -/
def initColorsGo (colors color_pairs : ℤ) : ℕ → List Material → List ℤ
  | _, [] => []
  | i, _ :: ms =>
    let pair : ℤ := (i : ℤ) + 1
    if pair ≥ colors ∨ pair ≥ color_pairs then []
    else pair :: initColorsGo colors color_pairs (i + 1) ms

/-- `init_colors` from `src/main.cpp` lines 44–65, as the trace of
registered color-pair numbers; nothing is registered when the terminal
lacks colors or cannot change them. -/
def init_colors (has_colors can_change_color : Bool) (colors color_pairs : ℤ)
    (materials : List Material) : List ℤ :=
  if !has_colors || !can_change_color then []
  else initColorsGo colors color_pairs 0 materials

/-- Modelled from the spec: `Buffer::printw` (implementation not in
`src/`): per cell, the emitted character and, when color is enabled and the
cell carries a material index, the color-pair selector `material + 1`. -/
def Buffer.printwTrace (b : Buffer) (colorEnabled : Bool) : List (Char × Option ℤ) :=
  b.pixels.map fun p =>
    (p.c, if colorEnabled then p.material.map (fun m => m + 1) else none)

/-! ### The main render loop (`src/main.cpp` lines 268–391) -/

/-- The keys the loop reacts to: `KEY_RESIZE` with the new terminal size,
the arrow keys, a printable character, or `ERR` (no input pending). -/
inductive Key where
  | resize (rows cols : ℕ)
  | left
  | right
  | up
  | down
  | ch (c : Char)
  | err
deriving DecidableEq

/-- `handle_control` from `src/main.cpp` lines 237–265. -/
def handle_control (cfg : CamCfg) (k : Key) (cam : Camera) : Camera :=
  match k with
  | .left => cam.rotate_left cfg.rotate_step
  | .right => cam.rotate_right cfg.rotate_step
  | .up => cam.rotate_up cfg cfg.rotate_step
  | .down => cam.rotate_down cfg cfg.rotate_step
  | .ch c =>
    if c = 'h' ∨ c = 'H' ∨ c = 'a' ∨ c = 'A' then cam.rotate_left cfg.rotate_step
    else if c = 'l' ∨ c = 'L' ∨ c = 'd' ∨ c = 'D' then cam.rotate_right cfg.rotate_step
    else if c = 'k' ∨ c = 'K' ∨ c = 'w' ∨ c = 'W' then cam.rotate_up cfg cfg.rotate_step
    else if c = 'j' ∨ c = 'J' ∨ c = 's' ∨ c = 'S' then cam.rotate_down cfg cfg.rotate_step
    else if c = '+' ∨ c = '=' ∨ c = 'i' ∨ c = 'I' then cam.zoom_in cfg
    else if c = '-' ∨ c = 'o' ∨ c = 'O' then cam.zoom_out cfg
    else cam
  | .err => cam
  | .resize _ _ => cam

/-- The mutable state of the main render loop. -/
structure LoopState where
  buf : Buffer
  cam : Camera
  hud : Bool
  rotate : Bool
deriving DecidableEq

/-- The externally visible buffer operations of one loop iteration. -/
inductive Action where
  | clearA
  | renderA
  | printwA
  | hudA
  | refreshA
deriving DecidableEq

/-- Modelled from the spec: `Renderer::render` (renderer source not in
`src/`) — for every retained face, "Submit the resulting Projection to the
buffer for rasterization": a fold of `draw_projection` over the frame's
projections, each with its display character and material index. -/
def Renderer.render (faces : List (Projection × Char × ℤ)) (b : Buffer) : Buffer :=
  faces.foldl (fun bb f => bb.draw_projection f.1 f.2.1 f.2.2) b

/-- Buffer construction in `main` (`src/main.cpp` lines 310–315 and
359–364): `logical_y` is fixed at 2.0 and `logical_x` is
`logical_y * cols / (rows * CHAR_ASPECT_RATIO)`; the aspect-ratio constant
comes from `config.h` (not in `src/`) and enters as a parameter. -/
def mkMainBuffer (cols rows : ℕ) (charAspect : ℚ) : Buffer :=
  Buffer.create cols rows (2 * (cols : ℚ) / ((rows : ℚ) * charAspect)) 2

/-- One iteration of the main render loop (`src/main.cpp` lines 327–387):
the animation step, the draw phase (`clear`, `Renderer::render`, `printw`,
the optional HUD, `refresh`), then the key handling.  Returns the next
state and the iteration's trace of buffer actions; `speed * dt` is the
animation rotation of the frame and `faces` the frame's projections. -/
def loopIter (cfg : CamCfg) (charAspect : ℚ) (speed dt : ℚ)
    (faces : List (Projection × Char × ℤ)) (st : LoopState) (k : Key) :
    LoopState × List Action :=
  let st1 := if st.rotate then { st with cam := st.cam.rotate_left (speed * dt) } else st
  let b1 := Renderer.render faces st1.buf.clear
  let tr := [Action.clearA, Action.renderA, Action.printwA] ++
    (if st1.hud then [Action.hudA] else []) ++ [Action.refreshA]
  let st2 := { st1 with buf := b1 }
  let st3 :=
    match k with
    | .resize rows cols => { st2 with buf := mkMainBuffer cols rows charAspect }
    | .ch c =>
      if c = 'q' ∨ c = 'Q' then st2
      else if c = '\t' then { st2 with hud := !st2.hud }
      else { st2 with rotate := false, cam := handle_control cfg (.ch c) st2.cam }
    | .err => st2
    | kk => { st2 with rotate := false, cam := handle_control cfg kk st2.cam }
  (st3, tr)

/-- The buffer geometry: everything except the pixel contents — character
dimensions, logical dimensions, scale factors, and the grid size. -/
def Buffer.geom (b : Buffer) : ℕ × ℕ × ℚ × ℚ × ℚ × ℚ × ℕ :=
  (b.x, b.y, b.logical_x, b.logical_y, b.dx, b.dy, b.pixels.length)

/-- Camera configuration used by concrete witnesses. -/
def wCfg : CamCfg := ⟨5, 89, 1, 1/10⟩

/-- Materials used by concrete witnesses. -/
def wMats : List Material := [⟨⟨1, 0, 0⟩⟩, ⟨⟨0, 1, 0⟩⟩, ⟨⟨0, 0, 1⟩⟩]

/-- Loop state used by concrete witnesses. -/
def wState : LoopState := ⟨wBuf, Camera.init 1, false, false⟩

/-! ### The depth-test compositing rule, cell by cell -/

theorem updateCell_comm (cov1 cov2 : Bool) (d1 d2 : ℚ) (c1 c2 : Char) (m1 m2 : ℤ)
    (p : Pixel) (hne : cov1 = true → cov2 = true → d1 ≠ d2) :
    updateCell cov2 d2 c2 m2 (updateCell cov1 d1 c1 m1 p) =
      updateCell cov1 d1 c1 m1 (updateCell cov2 d2 c2 m2 p) := by
  cases cov1 with
  | false => simp [updateCell]
  | true =>
    cases cov2 with
    | false => simp [updateCell]
    | true =>
      have hd : d1 ≠ d2 := hne rfl rfl
      simp only [updateCell, true_and]
      by_cases h1 : d1 < p.z <;> by_cases h2 : d2 < p.z <;>
        simp only [if_pos, if_neg, h1, h2, ite_true, ite_false] <;>
        split_ifs <;>
        first | rfl | (exfalso; rcases hd.lt_or_lt with ht | ht <;> linarith)

theorem draw_projection_unfold (b : Buffer) (q : Projection) (c : Char) (m : ℤ) :
    b.draw_projection q c m =
      Buffer.mk b.x b.y b.logical_x b.logical_y b.dx b.dy
        (b.pixels.mapIdx (fun k p => updateCell (b.covers q k) (b.depth q k) c m p)) := rfl

theorem draw_projection_after (b : Buffer) (q1 q2 : Projection) (c1 c2 : Char)
    (m1 m2 : ℤ) :
    (b.draw_projection q1 c1 m1).draw_projection q2 c2 m2 =
      Buffer.mk b.x b.y b.logical_x b.logical_y b.dx b.dy
        ((b.pixels.mapIdx
            (fun k p => updateCell (b.covers q1 k) (b.depth q1 k) c1 m1 p)).mapIdx
          (fun k p => updateCell (b.covers q2 k) (b.depth q2 k) c2 m2 p)) := rfl

/-- C1: for every buffer state and every pair of projections, submitting them
to `Buffer.draw_projection` in either order yields the identical pixel grid,
as long as the two triangles do not interpolate exactly equal depths at any
cell covered by both (the "up to floating-point tie-breaking" proviso). -/
theorem C1_draw_order_independent (b : Buffer) (q1 q2 : Projection)
    (c1 c2 : Char) (m1 m2 : ℤ)
    (h : ∀ k, k < b.pixels.length → b.covers q1 k = true → b.covers q2 k = true →
      b.depth q1 k ≠ b.depth q2 k) :
    (b.draw_projection q1 c1 m1).draw_projection q2 c2 m2 =
      (b.draw_projection q2 c2 m2).draw_projection q1 c1 m1 := by
  rw [draw_projection_after, draw_projection_after]
  congr 1
  rw [List.mapIdx_mapIdx, List.mapIdx_mapIdx, List.mapIdx_eq_mapIdx_iff]
  intro k hk
  exact updateCell_comm _ _ _ _ _ _ _ _ _ (h k hk)

theorem C1_witness :
    (wBuf.draw_projection wTri1 '#' 0).draw_projection wTri2 '*' 1 =
      (wBuf.draw_projection wTri2 '*' 1).draw_projection wTri1 '#' 0 :=
  C1_draw_order_independent wBuf wTri1 wTri2 '#' '*' 0 1 (by
    intro k hk _ _
    have hk1 : k = 0 := by
      simpa [wBuf, Buffer.create] using hk
    subst hk1
    norm_num [wBuf, wTri1, wTri2, Buffer.depth, Buffer.create, Projection.normal,
      Buffer.colCoord, Buffer.rowCoord])

/-- C2: for every cell of the grid, `draw_projection` overwrites the cell with
(interpolated depth, character, material) exactly when the cell is covered and
the interpolated depth is strictly below the stored depth; every other cell is
left unchanged. -/
theorem C2_draw_cell_update (b : Buffer) (q : Projection) (c : Char) (m : ℤ)
    (k : ℕ) (p : Pixel) (hp : b.pixels[k]? = some p) :
    (b.draw_projection q c m).pixels[k]? =
      some (if b.covers q k = true ∧ b.depth q k < p.z
            then ⟨b.depth q k, c, some m⟩ else p) := by
  rw [draw_projection_unfold]
  simp [List.getElem?_mapIdx, hp, updateCell]

theorem C2_witness :
    (wBuf.draw_projection wTri1 '#' 5).pixels[0]? =
      some (if wBuf.covers wTri1 0 = true ∧ wBuf.depth wTri1 0 < Pixel.empty.z
            then ⟨wBuf.depth wTri1 0, '#', some 5⟩ else Pixel.empty) :=
  C2_draw_cell_update wBuf wTri1 '#' 5 0 Pixel.empty (by simp [wBuf, Buffer.create])

/-- C3: after `clear()`, every cell of the grid equals the empty sentinel:
depth is the "infinitely far" float maximum, the character is a blank, and
there is no material index — the state of a freshly constructed `Pixel`. -/
theorem C3_clear_resets_cells (b : Buffer) (p : Pixel) (hp : p ∈ b.clear.pixels) :
    p = Pixel.empty ∧ p.z = floatMax ∧ p.c = ' ' ∧ p.material = none := by
  have he : p = Pixel.empty := by
    have hm := hp
    simp only [Buffer.clear, List.mem_map] at hm
    rcases hm with ⟨a, _, ha⟩
    exact ha.symm
  subst he
  exact ⟨rfl, rfl, rfl, rfl⟩

theorem C3_witness :
    Pixel.empty ∈ (Buffer.create 2 3 4 2).clear.pixels ∧
      Pixel.empty.z = floatMax ∧ Pixel.empty.c = ' ' ∧ Pixel.empty.material = none := by
  have hm : Pixel.empty ∈ (Buffer.create 2 3 4 2).clear.pixels := by
    simp [Buffer.create, Buffer.clear, List.mem_replicate]
  exact ⟨hm, (C3_clear_resets_cells (Buffer.create 2 3 4 2) Pixel.empty hm).2⟩

/-! ### Lemmas about numeric token parsing -/

theorem head?_dropWhile (p : Char → Bool) (l : List Char) (c : Char)
    (h : (l.dropWhile p).head? = some c) : p c = false := by
  induction l with
  | nil => simp at h
  | cons a t ih =>
    rw [List.dropWhile_cons] at h
    by_cases hp : p a
    · simp [hp] at h; exact ih h
    · simp [hp] at h; subst h; simpa using hp

theorem takeWhile_append_eq (p : Char → Bool) (w t : List Char)
    (hw : ∀ c ∈ w, p c = true) (ht : ∀ c, t.head? = some c → p c = false) :
    (w ++ t).takeWhile p = w ∧ (w ++ t).dropWhile p = t := by
  induction w with
  | nil =>
    simp only [List.nil_append]
    cases t with
    | nil => simp
    | cons c r =>
      have hc := ht c rfl
      simp [List.takeWhile_cons, List.dropWhile_cons, hc]
  | cons a w' ih =>
    have ha := hw a (List.mem_cons_self a w')
    have ih' := ih (fun c hc => hw c (List.mem_cons_of_mem a hc))
    simp [List.takeWhile_cons, List.dropWhile_cons, ha, ih'.1, ih'.2]

theorem space_not_digit {c : Char} (h : isSpaceCh c = true) : isDigitCh c = false := by
  simp only [isSpaceCh, Bool.or_eq_true, decide_eq_true_eq] at h
  rcases h with ((((h | h) | h) | h) | h) | h <;> subst h <;> decide

theorem digit_not_space {c : Char} (h : isDigitCh c = true) : isSpaceCh c = false := by
  cases hs : isSpaceCh c
  · rfl
  · rw [space_not_digit hs] at h; cases h

theorem digit_ne {c x : Char} (h : isDigitCh c = true) (hx : isDigitCh x = false) : c ≠ x := by
  intro he; rw [he, hx] at h; cases h

theorem headIs_eq_true {l : List Char} {c : Char} :
    headIs l c = true ↔ ∃ r, l = c :: r := by
  cases l with
  | nil => simp [headIs]
  | cons a r =>
    constructor
    · intro h
      have ha : a = c := by simpa [headIs] using h
      exact ⟨r, by rw [ha]⟩
    · rintro ⟨r', hr⟩
      injection hr with h1 _
      simp [headIs, h1]

theorem digit_dot_not_sign {c : Char} (h : isDigitCh c = true ∨ c = '.') :
    c ≠ '-' ∧ c ≠ '+' := by
  rcases h with h | h
  · exact ⟨digit_ne h (by decide), digit_ne h (by decide)⟩
  · subst h; exact ⟨by decide, by decide⟩

theorem sign_step (g rest : List Char) (neg : Bool) (hs : SignList g neg)
    (hrest : ∀ c, rest.head? = some c → c ≠ '-' ∧ c ≠ '+') :
    headIs (g ++ rest) '-' = neg ∧
    (headIs (g ++ rest) '-' || headIs (g ++ rest) '+') = !g.isEmpty ∧
    (g ++ rest).drop (if (!g.isEmpty) = true then 1 else 0) = rest ∧
    (if (!g.isEmpty) = true then 1 else 0) = g.length := by
  rcases hs with ⟨hg, hn⟩ | ⟨hg, hn⟩ | ⟨hg, hn⟩ <;> subst hg <;> subst hn
  · cases rest with
    | nil => simp [headIs]
    | cons c r =>
      have hc := hrest c rfl
      have h1 : headIs (c :: r) '-' = false := by
        simp only [headIs, decide_eq_false_iff_not]
        exact hc.1
      have h2 : headIs (c :: r) '+' = false := by
        simp only [headIs, decide_eq_false_iff_not]
        exact hc.2
      simp [h1, h2]
  · simp [headIs]
  · simp [headIs]

theorem safe_stoi_iff (s : String) (v : ℤ) :
    safe_stoi s = some v ↔ IsIntToken s v ∧ intInRange v := by
  constructor
  · intro h
    unfold safe_stoi at h
    rcases hm : stoiModel s.data with ⟨v', pos⟩ | _ | _ <;> rw [hm] at h <;>
      [skip; exact absurd h (by simp); exact absurd h (by simp)]
    dsimp only at h
    by_cases hpos : pos = s.data.length
    case neg => rw [if_neg hpos] at h; exact absurd h (by simp)
    rw [if_pos hpos] at h
    injection h with hv'
    subst hv'
    simp only [stoiModel] at hm
    set w := s.data.takeWhile isSpaceCh with hw
    set t := s.data.dropWhile isSpaceCh with ht
    set sgnB := (headIs t '-' || headIs t '+') with hsgnB
    set sgnF := (if headIs t '-' = true then (-1 : ℤ) else 1) with hsgnF
    set t2 := t.drop (if sgnB then 1 else 0) with ht2
    set ds := t2.takeWhile isDigitCh with hds
    set rest := t2.dropWhile isDigitCh with hrestdef
    split at hm
    · exact CppNum.noConfusion hm
    · rename_i h1
      split at hm
      · exact CppNum.noConfusion hm
      · rename_i h2
        injection hm with hvv hp
        have hsplit : s.data = w ++ t := (List.takeWhile_append_dropWhile isSpaceCh s.data).symm
        have hspace : SpaceList w := fun c hc => List.mem_takeWhile_imp hc
        have hdig : DigitList ds := fun c hc => List.mem_takeWhile_imp hc
        have hrest : t2 = ds ++ rest := (List.takeWhile_append_dropWhile isDigitCh t2).symm
        have hsn : ∃ g, SignList g (headIs t '-') ∧ t = g ++ t2 ∧
            (if sgnB then 1 else 0) = g.length := by
          by_cases hminus : headIs t '-' = true
          · rcases headIs_eq_true.mp hminus with ⟨r, hr⟩
            have hsB : sgnB = true := by rw [hsgnB, hminus]; simp
            refine ⟨['-'], ?_, ?_, ?_⟩
            · rw [hminus]; exact Or.inr (Or.inr ⟨rfl, rfl⟩)
            · rw [ht2, hr, hsB]; simp
            · rw [hsB]; simp
          · by_cases hplus : headIs t '+' = true
            · rcases headIs_eq_true.mp hplus with ⟨r, hr⟩
              have hsB : sgnB = true := by rw [hsgnB, hplus]; simp
              refine ⟨['+'], ?_, ?_, ?_⟩
              · simp only [Bool.not_eq_true] at hminus
                rw [hminus]; exact Or.inr (Or.inl ⟨rfl, rfl⟩)
              · rw [ht2, hr, hsB]; simp
              · rw [hsB]; simp
            · simp only [Bool.not_eq_true] at hminus hplus
              have hsB : sgnB = false := by rw [hsgnB, hminus, hplus]; rfl
              refine ⟨[], ?_, ?_, ?_⟩
              · rw [hminus]; exact Or.inl ⟨rfl, rfl⟩
              · rw [ht2, hsB]; simp
              · rw [hsB]; simp
        rcases hsn with ⟨g, hsg, htg, hglen⟩
        have h1len : s.data.length = w.length + t.length := by
          rw [hsplit]; simp
        have h2len : t.length = g.length + t2.length := by
          rw [htg]; simp
        have h3len : t2.length = ds.length + rest.length := by
          have := congrArg List.length hrest
          simpa using this
        have hrestnil : rest = [] := by
          have : rest.length = 0 := by omega
          exact List.length_eq_zero.mp this
        have ht2ds : t2 = ds := by rw [hrest, hrestnil, List.append_nil]
        refine ⟨⟨w, g, ds, headIs t '-', ?_, hspace, hsg, h1, hdig, ?_⟩, ?_⟩
        · rw [hsplit, htg, ht2ds, List.append_assoc]
        · rw [hsgnF] at hvv; exact hvv.symm
        · rw [← hvv]
          simp only [not_or, not_lt] at h2
          exact ⟨h2.1, h2.2⟩
  · rintro ⟨⟨w, g, ds, neg, hsplit, hspace, hsign, hne, hdig, hv⟩, hr⟩
    have hdshead : ∀ c, ds.head? = some c → isDigitCh c = true ∨ c = '.' :=
      fun c hc => Or.inl (hdig c (List.mem_of_mem_head? hc))
    have hss := sign_step g ds neg hsign (fun c hc => digit_dot_not_sign (hdshead c hc))
    have hthead : ∀ c, (g ++ ds).head? = some c → isSpaceCh c = false := by
      intro c hc
      rcases hsign with ⟨hg, _⟩ | ⟨hg, _⟩ | ⟨hg, _⟩ <;> subst hg
      · simp only [List.nil_append] at hc
        exact digit_not_space (hdig c (List.mem_of_mem_head? hc))
      · simp at hc; subst hc; decide
      · simp at hc; subst hc; decide
    have hsplit' : s.data = w ++ (g ++ ds) := by rw [hsplit, List.append_assoc]
    have hTW := takeWhile_append_eq isSpaceCh w (g ++ ds) hspace hthead
    have hcalc : stoiModel s.data = CppNum.ok v s.data.length := by
      simp only [stoiModel]
      rw [hsplit', hTW.1, hTW.2, hss.2.1, hss.2.2.1,
        List.takeWhile_eq_self_iff.mpr hdig, hss.1, if_neg hne, ← hv,
        if_neg (by push_neg; exact ⟨hr.1, hr.2⟩)]
      congr 1
      rw [hss.2.2.2]
      simp [List.length_append]
      omega
    unfold safe_stoi
    rw [hcalc]
    simp

theorem headIs_false_ne {l : List Char} {c x : Char} (h : headIs l c = false)
    (hx : l.head? = some x) : x ≠ c := by
  cases l with
  | nil => exact Option.noConfusion hx
  | cons a r =>
    injection hx with ha
    subst ha
    simpa [headIs] using h

theorem fracParse_dot (r : List Char) :
    fracParse ('.' :: r) = (r.takeWhile isDigitCh, r.dropWhile isDigitCh,
      1 + (r.takeWhile isDigitCh).length) := by
  simp [fracParse]

theorem fracParse_nodot (t3 : List Char) (h : ∀ c, t3.head? = some c → c ≠ '.') :
    fracParse t3 = ([], t3, 0) := by
  cases t3 with
  | nil => rfl
  | cons c r =>
    have := h c rfl
    simp [fracParse, this]

theorem expParse_nil : expParse [] = none := rfl

theorem expParse_some {t5 : List Char} {e : ℤ} {n : ℕ}
    (h : expParse t5 = some (e, n)) :
    ∃ ec r, (ec = 'e' ∨ ec = 'E') ∧ t5 = ec :: r ∧ expTail r = some (e, n) := by
  cases t5 with
  | nil => exact Option.noConfusion h
  | cons c r =>
    simp only [expParse] at h
    by_cases hc : c = 'e' ∨ c = 'E'
    · rw [if_pos hc] at h; exact ⟨c, r, hc, rfl, h⟩
    · rw [if_neg hc] at h; exact Option.noConfusion h

theorem expParse_cons (ec : Char) (r : List Char) (hc : ec = 'e' ∨ ec = 'E') :
    expParse (ec :: r) = expTail r := by
  simp only [expParse]
  rw [if_pos hc]

theorem expTail_some {r : List Char} {e : ℤ} {n : ℕ} (h : expTail r = some (e, n)) :
    ∃ g eds eneg restE, SignList g eneg ∧ eds ≠ [] ∧ DigitList eds ∧
      r = g ++ (eds ++ restE) ∧
      e = (if eneg = true then -1 else 1) * (digitsToNat eds : ℤ) ∧
      n = 1 + g.length + eds.length := by
  simp only [expTail] at h
  set sgnB := (headIs r '-' || headIs r '+') with hsgnB
  set sgnF := (if headIs r '-' = true then (-1 : ℤ) else 1) with hsgnF
  set sgnN := (if sgnB = true then (1 : ℕ) else 0) with hsgnN
  set r2 := r.drop sgnN with hr2
  set eds := r2.takeWhile isDigitCh with heds
  set restE := r2.dropWhile isDigitCh with hrestdef
  split at h
  · exact Option.noConfusion h
  · rename_i hne
    injection h with hpair
    have hv := congrArg Prod.fst hpair
    have hn := congrArg Prod.snd hpair
    simp only at hv hn
    have hsplit2 : r2 = eds ++ restE := (List.takeWhile_append_dropWhile isDigitCh r2).symm
    have hdig : DigitList eds := fun c hc => List.mem_takeWhile_imp hc
    by_cases hminus : headIs r '-' = true
    · rcases headIs_eq_true.mp hminus with ⟨rr, hrr⟩
      have hsB : sgnB = true := by rw [hsgnB, hminus]; simp
      have hN : sgnN = 1 := by rw [hsgnN, hsB]; rfl
      refine ⟨['-'], eds, true, restE, Or.inr (Or.inr ⟨rfl, rfl⟩), hne, hdig, ?_, ?_, ?_⟩
      · rw [hrr]
        have : r2 = rr := by rw [hr2, hrr, hN]; rfl
        rw [← hsplit2, this]
        rfl
      · rw [← hv, hsgnF, hminus]
      · rw [← hn, hN]; rfl
    · by_cases hplus : headIs r '+' = true
      · rcases headIs_eq_true.mp hplus with ⟨rr, hrr⟩
        have hsB : sgnB = true := by rw [hsgnB, hplus]; simp
        have hN : sgnN = 1 := by rw [hsgnN, hsB]; rfl
        refine ⟨['+'], eds, false, restE, Or.inr (Or.inl ⟨rfl, rfl⟩), hne, hdig, ?_, ?_, ?_⟩
        · rw [hrr]
          have : r2 = rr := by rw [hr2, hrr, hN]; rfl
          rw [← hsplit2, this]
          rfl
        · simp only [Bool.not_eq_true] at hminus
          rw [← hv, hsgnF, hminus]
        · rw [← hn, hN]; rfl
      · simp only [Bool.not_eq_true] at hminus hplus
        have hsB : sgnB = false := by rw [hsgnB, hminus, hplus]; rfl
        have hN : sgnN = 0 := by rw [hsgnN, hsB]; rfl
        refine ⟨[], eds, false, restE, Or.inl ⟨rfl, rfl⟩, hne, hdig, ?_, ?_, ?_⟩
        · have : r2 = r := by rw [hr2, hN]; rfl
          rw [← hsplit2, this]
          rfl
        · rw [← hv, hsgnF, hminus]
        · rw [← hn, hN]; rfl

theorem expTail_complete (g eds : List Char) (eneg : Bool) (hs : SignList g eneg)
    (hne : eds ≠ []) (hdig : DigitList eds) :
    expTail (g ++ eds) = some ((if eneg = true then -1 else 1) * (digitsToNat eds : ℤ),
      1 + g.length + eds.length) := by
  have hss := sign_step g eds eneg hs
    (fun c hc => digit_dot_not_sign (Or.inl (hdig c (List.mem_of_mem_head? hc))))
  simp only [expTail]
  rw [hss.2.1, hss.2.2.1, List.takeWhile_eq_self_iff.mpr hdig, if_neg hne, hss.1, hss.2.2.2]

theorem mantissa_ne_nil {m i f : List Char} (hm : MantissaPart m i f) : m ≠ [] := by
  rcases hm with ⟨_, _, hnemp, ⟨hmi, hf⟩ | hcase⟩
  · subst hmi
    intro hi
    exact hnemp ⟨hi, hf⟩
  · subst hcase
    simp

theorem mantissa_head {m i f : List Char} (hm : MantissaPart m i f) :
    ∀ c, m.head? = some c → isDigitCh c = true ∨ c = '.' := by
  intro c hc
  rcases hm with ⟨hdi, hdf, hnemp, ⟨hmi, hf⟩ | hcase⟩
  · subst hmi
    exact Or.inl (hdi c (List.mem_of_mem_head? hc))
  · subst hcase
    cases i with
    | nil =>
      simp only [List.nil_append, List.head?_cons] at hc
      injection hc with hcc
      exact Or.inr hcc.symm
    | cons a it =>
      simp only [List.cons_append, List.head?_cons] at hc
      injection hc with hcc
      subst hcc
      exact Or.inl (hdi a (List.mem_cons_self a it))

theorem exppart_head {ex : List Char} {e : ℤ} (hex : ExpPart ex e) :
    ∀ c, ex.head? = some c → isDigitCh c = false ∧ isSpaceCh c = false ∧ c ≠ '.' := by
  intro c hc
  rcases hex with ⟨hnil, _⟩ | ⟨ec, g, eds, eneg, hc2, _, _, _, hx, _⟩
  · subst hnil; exact Option.noConfusion hc
  · subst hx
    injection hc with hcc
    subst hcc
    rcases hc2 with h | h <;> subst h <;> exact ⟨by decide, by decide, by decide⟩

/-! Lemmas about the case-insensitive prefix test and the special `strtof`
spellings. -/

theorem lcPrefix_iff (pat : List Char) : ∀ l : List Char,
    lcPrefix pat l = true ↔ ∃ pre rest, l = pre ++ rest ∧ pre.map lowerCh = pat := by
  induction pat with
  | nil =>
    intro l
    simp only [lcPrefix]
    constructor
    · intro _
      exact ⟨[], l, rfl, rfl⟩
    · intro _
      trivial
  | cons p ps ih =>
    intro l
    cases l with
    | nil =>
      simp only [lcPrefix]
      constructor
      · intro h
        exact absurd h (by simp)
      · rintro ⟨pre, rest, hl, hmap⟩
        cases pre with
        | nil => exact List.noConfusion hmap
        | cons a pre' => exact List.noConfusion hl
    | cons c cs =>
      simp only [lcPrefix, Bool.and_eq_true, decide_eq_true_eq]
      constructor
      · rintro ⟨hc, hrec⟩
        rcases (ih cs).mp hrec with ⟨pre, rest, hcs, hmap⟩
        refine ⟨c :: pre, rest, ?_, ?_⟩
        · rw [hcs]
          rfl
        · simp only [List.map_cons, hc, hmap]
      · rintro ⟨pre, rest, hl, hmap⟩
        cases pre with
        | nil => exact List.noConfusion hmap
        | cons a pre' =>
          rw [List.cons_append] at hl
          injection hl with h1 h2
          simp only [List.map_cons] at hmap
          injection hmap with hm1 hm2
          subst h1
          exact ⟨hm1, (ih cs).mpr ⟨pre', rest, h2, hm2⟩⟩

theorem spells_length {l pat : List Char} (h : SpellsCI l pat) :
    l.length = pat.length := by
  have := congrArg List.length h
  simpa using this

theorem lcPrefix_of_spells {pre pat : List Char} (h : SpellsCI pre pat)
    (rest : List Char) : lcPrefix pat (pre ++ rest) = true :=
  (lcPrefix_iff pat (pre ++ rest)).mpr ⟨pre, rest, rfl, h⟩

theorem lcPrefix_false_of_short {pat l : List Char} (h : l.length < pat.length) :
    lcPrefix pat l = false := by
  cases hp : lcPrefix pat l
  · rfl
  · rcases (lcPrefix_iff pat l).mp hp with ⟨pre, rest, hl, hmap⟩
    have h1 : pre.length = pat.length := by
      have := congrArg List.length hmap
      simpa using this
    have h2 : l.length = pre.length + rest.length := by
      rw [hl]
      simp
    omega

theorem spells_head {l : List Char} {p : Char} {ps : List Char}
    (h : SpellsCI l (p :: ps)) : ∃ c r, l = c :: r ∧ lowerCh c = p := by
  cases l with
  | nil => exact List.noConfusion h
  | cons c r =>
    simp only [SpellsCI, List.map_cons] at h
    injection h with h1 _
    exact ⟨c, r, rfl, h1⟩

theorem lower_in_facts {c p : Char} (hp : p = 'i' ∨ p = 'n') (h : lowerCh c = p) :
    isSpaceCh c = false ∧ c ≠ '-' ∧ c ≠ '+' := by
  refine ⟨?_, ?_, ?_⟩
  · cases hs : isSpaceCh c
    · rfl
    · exfalso
      simp only [isSpaceCh, Bool.or_eq_true, decide_eq_true_eq] at hs
      rcases hp with rfl | rfl <;>
        rcases hs with ((((hc | hc) | hc) | hc) | hc) | hc <;> subst hc <;>
          exact absurd h (by decide)
  · rintro rfl
    rcases hp with rfl | rfl <;> exact absurd h (by decide)
  · rintro rfl
    rcases hp with rfl | rfl <;> exact absurd h (by decide)

theorem digit_lt_A {c : Char} (h : isDigitCh c = true) : c < 'A' := by
  simp only [isDigitCh, Bool.and_eq_true, decide_eq_true_eq] at h
  exact lt_of_le_of_lt h.2 (by decide)

theorem lower_eq_self_of_lt {c : Char} (h : c < 'A') : lowerCh c = c := by
  unfold lowerCh
  rw [if_neg]
  rintro ⟨hA, _⟩
  exact absurd (lt_of_lt_of_le h hA) (lt_irrefl c)

theorem digit_dot_lower_ne {c : Char} (h : isDigitCh c = true ∨ c = '.') :
    lowerCh c ≠ 'i' ∧ lowerCh c ≠ 'n' := by
  have hl : lowerCh c = c := by
    rcases h with h | h
    · exact lower_eq_self_of_lt (digit_lt_A h)
    · subst h
      decide
  rw [hl]
  rcases h with h | h
  · exact ⟨digit_ne h (by decide), digit_ne h (by decide)⟩
  · subst h
    exact ⟨by decide, by decide⟩

theorem infParse_some {t2 : List Char} {n : ℕ} (h : infParse t2 = some n) :
    ∃ pre rest, t2 = pre ++ rest ∧ pre.length = n ∧
      (SpellsCI pre ['i', 'n', 'f'] ∨
        SpellsCI pre ['i', 'n', 'f', 'i', 'n', 'i', 't', 'y']) := by
  unfold infParse at h
  by_cases h8 : lcPrefix ['i', 'n', 'f', 'i', 'n', 'i', 't', 'y'] t2 = true
  · rw [if_pos h8] at h
    injection h with hn
    rcases (lcPrefix_iff _ t2).mp h8 with ⟨pre, rest, hl, hmap⟩
    refine ⟨pre, rest, hl, ?_, Or.inr hmap⟩
    rw [← hn]
    exact spells_length hmap
  · rw [if_neg h8] at h
    by_cases h3 : lcPrefix ['i', 'n', 'f'] t2 = true
    · rw [if_pos h3] at h
      injection h with hn
      rcases (lcPrefix_iff _ t2).mp h3 with ⟨pre, rest, hl, hmap⟩
      refine ⟨pre, rest, hl, ?_, Or.inl hmap⟩
      rw [← hn]
      exact spells_length hmap
    · rw [if_neg h3] at h
      exact Option.noConfusion h

theorem infParse_inf {seq : List Char} (h : SpellsCI seq ['i', 'n', 'f']) :
    infParse seq = some 3 := by
  have h3 : lcPrefix ['i', 'n', 'f'] seq = true := by
    have := lcPrefix_of_spells h []
    rwa [List.append_nil] at this
  have h8 : lcPrefix ['i', 'n', 'f', 'i', 'n', 'i', 't', 'y'] seq = false :=
    lcPrefix_false_of_short (by rw [spells_length h]; decide)
  simp [infParse, h3, h8]

theorem infParse_infinity {seq : List Char}
    (h : SpellsCI seq ['i', 'n', 'f', 'i', 'n', 'i', 't', 'y']) :
    infParse seq = some 8 := by
  have h8 : lcPrefix ['i', 'n', 'f', 'i', 'n', 'i', 't', 'y'] seq = true := by
    have := lcPrefix_of_spells h []
    rwa [List.append_nil] at this
  simp [infParse, h8]

theorem infParse_none_head {t2 : List Char}
    (h : ∀ c, t2.head? = some c → lowerCh c ≠ 'i') : infParse t2 = none := by
  cases t2 with
  | nil => rfl
  | cons c r =>
    have hc := h c rfl
    simp [infParse, lcPrefix, hc]

theorem nanParse_none_head {t2 : List Char}
    (h : ∀ c, t2.head? = some c → lowerCh c ≠ 'n') : nanParse t2 = none := by
  cases t2 with
  | nil => rfl
  | cons c r =>
    have hc := h c rfl
    simp [nanParse, lcPrefix, hc]

theorem nanParse_some {t2 : List Char} {n : ℕ} (h : nanParse t2 = some n) :
    ∃ n3 r, t2 = n3 ++ r ∧ SpellsCI n3 ['n', 'a', 'n'] ∧
      (n = 3 ∨ ∃ inner r2, r = '(' :: (inner ++ (')' :: r2)) ∧
        (∀ c ∈ inner, isNanChar c = true) ∧ n = 5 + inner.length) := by
  unfold nanParse at h
  by_cases hpre : lcPrefix ['n', 'a', 'n'] t2 = true
  case neg =>
    rw [if_neg hpre] at h
    exact Option.noConfusion h
  rw [if_pos hpre] at h
  rcases (lcPrefix_iff _ t2).mp hpre with ⟨n3, r, ht2, hmap⟩
  have hlen : n3.length = 3 := spells_length hmap
  have hdrop : t2.drop 3 = r := by
    rw [ht2, ← hlen]
    exact List.drop_left n3 r
  rw [hdrop] at h
  refine ⟨n3, r, ht2, hmap, ?_⟩
  cases r with
  | nil =>
    injection h with hn
    exact Or.inl hn.symm
  | cons c r' =>
    dsimp only at h
    by_cases hc : c = '('
    · rw [if_pos hc] at h
      subst hc
      rcases hdw : r'.dropWhile isNanChar with _ | ⟨c2, rest2⟩
      · rw [hdw] at h
        injection h with hn
        exact Or.inl hn.symm
      · rw [hdw] at h
        dsimp only at h
        by_cases hc2 : c2 = ')'
        · rw [if_pos hc2] at h
          subst hc2
          injection h with hn
          have hsplitr : r' = r'.takeWhile isNanChar ++ (')' :: rest2) := by
            have hTD : r' = r'.takeWhile isNanChar ++ r'.dropWhile isNanChar :=
              (List.takeWhile_append_dropWhile _ _).symm
            rw [hdw] at hTD
            exact hTD
          refine Or.inr ⟨r'.takeWhile isNanChar, rest2, ?_,
            fun c hc => List.mem_takeWhile_imp hc, hn.symm⟩
          rw [← hsplitr]
        · rw [if_neg hc2] at h
          injection h with hn
          exact Or.inl hn.symm
    · rw [if_neg hc] at h
      injection h with hn
      exact Or.inl hn.symm

theorem nanChar_ne_rparen {c : Char} (h : isNanChar c = true) : c ≠ ')' := by
  intro he
  subst he
  exact absurd h (by decide)

theorem nanParse_complete {n3 rest : List Char} (hsp : SpellsCI n3 ['n', 'a', 'n'])
    (hrest : rest = [] ∨ ∃ inner, rest = '(' :: (inner ++ [')']) ∧
      ∀ c ∈ inner, isNanChar c = true) :
    nanParse (n3 ++ rest) = some (n3 ++ rest).length := by
  have hlen : n3.length = 3 := spells_length hsp
  have hpre : lcPrefix ['n', 'a', 'n'] (n3 ++ rest) = true := lcPrefix_of_spells hsp rest
  have hdrop : (n3 ++ rest).drop 3 = rest := by
    rw [← hlen]
    exact List.drop_left n3 rest
  unfold nanParse
  rw [if_pos hpre, hdrop]
  rcases hrest with hrest | ⟨inner, hrest, hin⟩
  · subst hrest
    simp [hlen]
  · subst hrest
    dsimp only
    rw [if_pos rfl]
    have hTW := takeWhile_append_eq isNanChar inner [')'] hin
      (by intro c hc; injection hc with hcc; subst hcc; decide)
    rw [hTW.2, hTW.1]
    dsimp only
    rw [if_pos rfl]
    simp only [List.length_append, List.length_cons, List.length_nil]
    congr 1
    omega

/-! Lemmas about the hexadecimal form of `strtof`. -/

theorem hexdigit_ne {c x : Char} (h : isHexDigit c = true) (hx : isHexDigit x = false) :
    c ≠ x := by
  intro he
  rw [he, hx] at h
  cases h

theorem hexmantissa_ne_nil {m hi hf : List Char} (hm : HexMantissa m hi hf) :
    m ≠ [] := by
  rcases hm with ⟨_, _, hnemp, ⟨hmi, hfnil⟩ | hcase⟩
  · subst hmi
    intro hnil
    exact hnemp ⟨hnil, hfnil⟩
  · subst hcase
    simp

theorem hexmantissa_head {m hi hf : List Char} (hm : HexMantissa m hi hf) :
    ∀ c, m.head? = some c → isHexDigit c = true ∨ c = '.' := by
  intro c hc
  rcases hm with ⟨hdi, hdf, hnemp, ⟨hmi, hfnil⟩ | hcase⟩
  · subst hmi
    exact Or.inl (hdi c (List.mem_of_mem_head? hc))
  · subst hcase
    cases hi with
    | nil =>
      simp only [List.nil_append, List.head?_cons] at hc
      injection hc with hcc
      exact Or.inr hcc.symm
    | cons a it =>
      simp only [List.cons_append, List.head?_cons] at hc
      injection hc with hcc
      subst hcc
      exact Or.inl (hdi a (List.mem_cons_self a it))

theorem pexppart_head {ex : List Char} {e : ℤ} (hex : PExpPart ex e) :
    ∀ c, ex.head? = some c → isHexDigit c = false ∧ c ≠ '.' := by
  intro c hc
  rcases hex with ⟨hnil, _⟩ | ⟨pc, g, eds, eneg, hc2, _, _, _, hx, _⟩
  · subst hnil
    exact Option.noConfusion hc
  · subst hx
    injection hc with hcc
    subst hcc
    rcases hc2 with h | h <;> subst h <;> exact ⟨by decide, by decide⟩

theorem hexFracParse_dot (r : List Char) :
    hexFracParse ('.' :: r) = (r.takeWhile isHexDigit, r.dropWhile isHexDigit,
      1 + (r.takeWhile isHexDigit).length) := by
  simp [hexFracParse]

theorem hexFracParse_nodot (t3 : List Char) (h : ∀ c, t3.head? = some c → c ≠ '.') :
    hexFracParse t3 = ([], t3, 0) := by
  cases t3 with
  | nil => rfl
  | cons c r =>
    have := h c rfl
    simp [hexFracParse, this]

theorem pExpParse_nil : pExpParse [] = none := rfl

theorem pExpParse_some {t5 : List Char} {e : ℤ} {n : ℕ}
    (h : pExpParse t5 = some (e, n)) :
    ∃ pc r, (pc = 'p' ∨ pc = 'P') ∧ t5 = pc :: r ∧ expTail r = some (e, n) := by
  cases t5 with
  | nil => exact Option.noConfusion h
  | cons c r =>
    simp only [pExpParse] at h
    by_cases hc : c = 'p' ∨ c = 'P'
    · rw [if_pos hc] at h
      exact ⟨c, r, hc, rfl, h⟩
    · rw [if_neg hc] at h
      exact Option.noConfusion h

theorem pExpParse_cons (pc : Char) (r : List Char) (hc : pc = 'p' ∨ pc = 'P') :
    pExpParse (pc :: r) = expTail r := by
  simp only [pExpParse]
  rw [if_pos hc]

theorem hexParse_nil : hexParse [] = none := rfl

theorem hexParse_single (c : Char) : hexParse [c] = none := rfl

theorem hexParse_none_first {c : Char} {r : List Char} (h : c ≠ '0') :
    hexParse (c :: r) = none := by
  cases r with
  | nil => rfl
  | cons c1 r' => simp [hexParse, h]

theorem hexParse_none_second {c1 : Char} {r : List Char} (h1 : c1 ≠ 'x')
    (h2 : c1 ≠ 'X') : hexParse ('0' :: c1 :: r) = none := by
  simp [hexParse, h1, h2]

theorem hexParse_some {t2 : List Char} {q : ℚ} {n : ℕ}
    (h : hexParse t2 = some (q, n)) :
    ∃ xc m ex rest hi hf e,
      (xc = 'x' ∨ xc = 'X') ∧
      t2 = '0' :: xc :: (m ++ (ex ++ rest)) ∧
      HexMantissa m hi hf ∧ PExpPart ex e ∧
      q = (hexToNat (hi ++ hf) : ℚ) * 2 ^ (e - 4 * (hf.length : ℤ)) ∧
      n = 2 + m.length + ex.length := by
  cases t2 with
  | nil => exact Option.noConfusion h
  | cons c0 l0 =>
    cases l0 with
    | nil => exact Option.noConfusion h
    | cons c1 r =>
      simp only [hexParse] at h
      by_cases hcond : c0 = '0' ∧ (c1 = 'x' ∨ c1 = 'X')
      case neg =>
        rw [if_neg hcond] at h
        exact Option.noConfusion h
      rw [if_pos hcond] at h
      obtain ⟨hc0, hc1⟩ := hcond
      subst hc0
      set hi := r.takeWhile isHexDigit with hhi
      set t3 := r.dropWhile isHexDigit with ht3
      set fr := hexFracParse t3 with hfr
      have hdigI : HexDigitList hi := fun c hc => List.mem_takeWhile_imp hc
      have hsplitI : r = hi ++ t3 := (List.takeWhile_append_dropWhile isHexDigit r).symm
      by_cases hdot : headIs t3 '.' = true
      · rcases headIs_eq_true.mp hdot with ⟨r2, hr3⟩
        have hfrEq : fr = (r2.takeWhile isHexDigit, r2.dropWhile isHexDigit,
            1 + (r2.takeWhile isHexDigit).length) := by
          rw [hfr, hr3, hexFracParse_dot]
        rw [hfrEq] at h
        dsimp only at h
        set fp := r2.takeWhile isHexDigit with hfp
        set t5 := r2.dropWhile isHexDigit with ht5
        have hdigF : HexDigitList fp := fun c hc => List.mem_takeWhile_imp hc
        have hsplitF : r2 = fp ++ t5 := (List.takeWhile_append_dropWhile isHexDigit r2).symm
        split at h
        · exact Option.noConfusion h
        · rename_i hne1
          rcases he : pExpParse t5 with _ | ⟨e0, n0⟩ <;> rw [he] at h <;>
            simp only [Option.map_none', Option.getD_none, Option.map_some',
              Option.getD_some] at h
          · injection h with hpair
            have hq := congrArg Prod.fst hpair
            have hn := congrArg Prod.snd hpair
            simp only at hq hn
            refine ⟨c1, hi ++ '.' :: fp, [], t5, hi, fp, 0, hc1, ?_,
              ⟨hdigI, hdigF, hne1, Or.inr rfl⟩, Or.inl ⟨rfl, rfl⟩, ?_, ?_⟩
            · rw [hsplitI, hr3, hsplitF]
              simp [List.append_assoc]
            · rw [← hq]
            · rw [← hn]
              simp only [List.length_append, List.length_cons, List.length_nil]
              omega
          · rcases pExpParse_some he with ⟨pc, rE, hcE, hT5, hTail⟩
            rcases expTail_some hTail with
              ⟨gE, edsE, enegE, restE, hsgE, hneE, hdgE, hrEq, hE0, hN0⟩
            injection h with hpair
            have hq := congrArg Prod.fst hpair
            have hn := congrArg Prod.snd hpair
            simp only at hq hn
            refine ⟨c1, hi ++ '.' :: fp, pc :: (gE ++ edsE), restE, hi, fp, e0, hc1, ?_,
              ⟨hdigI, hdigF, hne1, Or.inr rfl⟩,
              Or.inr ⟨pc, gE, edsE, enegE, hcE, hsgE, hneE, hdgE, rfl, hE0⟩, ?_, ?_⟩
            · rw [hsplitI, hr3, hsplitF, hT5, hrEq]
              simp [List.append_assoc]
            · rw [← hq]
            · rw [← hn, hN0]
              simp only [List.length_append, List.length_cons, List.length_nil]
              omega
      · simp only [Bool.not_eq_true] at hdot
        have hfrEq : fr = ([], t3, 0) := by
          rw [hfr]
          exact hexFracParse_nodot t3 (fun c hc => headIs_false_ne hdot hc)
        rw [hfrEq] at h
        dsimp only at h
        split at h
        · exact Option.noConfusion h
        · rename_i hne1
          rcases he : pExpParse t3 with _ | ⟨e0, n0⟩ <;> rw [he] at h <;>
            simp only [Option.map_none', Option.getD_none, Option.map_some',
              Option.getD_some] at h
          · injection h with hpair
            have hq := congrArg Prod.fst hpair
            have hn := congrArg Prod.snd hpair
            simp only at hq hn
            refine ⟨c1, hi, [], t3, hi, [], 0, hc1, ?_,
              ⟨hdigI, fun c hc => absurd hc (List.not_mem_nil c),
                fun hcc => hne1 ⟨hcc.1, rfl⟩, Or.inl ⟨rfl, rfl⟩⟩,
              Or.inl ⟨rfl, rfl⟩, ?_, ?_⟩
            · rw [hsplitI]
              simp
            · rw [← hq]
            · rw [← hn]
              simp
          · rcases pExpParse_some he with ⟨pc, rE, hcE, hT5, hTail⟩
            rcases expTail_some hTail with
              ⟨gE, edsE, enegE, restE, hsgE, hneE, hdgE, hrEq, hE0, hN0⟩
            injection h with hpair
            have hq := congrArg Prod.fst hpair
            have hn := congrArg Prod.snd hpair
            simp only at hq hn
            refine ⟨c1, hi, pc :: (gE ++ edsE), restE, hi, [], e0, hc1, ?_,
              ⟨hdigI, fun c hc => absurd hc (List.not_mem_nil c),
                fun hcc => hne1 ⟨hcc.1, rfl⟩, Or.inl ⟨rfl, rfl⟩⟩,
              Or.inr ⟨pc, gE, edsE, enegE, hcE, hsgE, hneE, hdgE, rfl, hE0⟩, ?_, ?_⟩
            · rw [hsplitI, hT5, hrEq]
              simp [List.append_assoc]
            · rw [← hq]
            · rw [← hn, hN0]
              simp only [List.length_append, List.length_cons, List.length_nil]
              omega

theorem hexParse_complete (xc : Char) (m ex hi hf : List Char) (e : ℤ)
    (hxc : xc = 'x' ∨ xc = 'X') (hman : HexMantissa m hi hf) (hexp : PExpPart ex e) :
    hexParse ('0' :: xc :: (m ++ ex)) =
      some ((hexToNat (hi ++ hf) : ℚ) * 2 ^ (e - 4 * (hf.length : ℤ)),
        2 + m.length + ex.length) := by
  obtain ⟨hdi, hdf, hnemp, hshape⟩ := hman
  have hexhead := pexppart_head hexp
  have hexheadD : ∀ c, ex.head? = some c → isHexDigit c = false :=
    fun c hc => (hexhead c hc).1
  simp only [hexParse]
  rw [if_pos ⟨trivial, hxc⟩]
  rcases hshape with ⟨hmi, hfnil⟩ | hmB
  · subst hfnil
    subst hmi
    have hIW := takeWhile_append_eq isHexDigit m ex hdi hexheadD
    have hfr : hexFracParse ex = ([], ex, 0) :=
      hexFracParse_nodot ex (fun c hc => (hexhead c hc).2)
    rcases hexp with ⟨hexnil, henil⟩ | ⟨pc, g2, eds, eneg, hc2, hsg2, hne2, hdg2, hx2, he2⟩
    · subst hexnil
      subst henil
      rw [hIW.1, hIW.2, hfr]
      dsimp only
      rw [if_neg hnemp, pExpParse_nil]
      simp only [Option.map_none', Option.getD_none]
      refine congrArg some (Prod.ext_iff.mpr ⟨rfl, by simp⟩)
    · subst hx2
      subst he2
      rw [hIW.1, hIW.2, hfr]
      dsimp only
      rw [if_neg hnemp, pExpParse_cons pc _ hc2,
        expTail_complete g2 eds eneg hsg2 hne2 hdg2]
      simp only [Option.map_some', Option.getD_some]
      refine congrArg some (Prod.ext_iff.mpr ⟨rfl, ?_⟩)
      simp only [List.length_cons, List.length_append, List.length_nil]
      omega
  · subst hmB
    have hIW := takeWhile_append_eq isHexDigit hi ('.' :: (hf ++ ex)) hdi
      (by intro c hc; injection hc with hcc; subst hcc; decide)
    have hFW := takeWhile_append_eq isHexDigit hf ex hdf hexheadD
    have hL2 : (hi ++ '.' :: hf) ++ ex = hi ++ '.' :: (hf ++ ex) := by
      simp [List.append_assoc]
    rcases hexp with ⟨hexnil, henil⟩ | ⟨pc, g2, eds, eneg, hc2, hsg2, hne2, hdg2, hx2, he2⟩
    · subst hexnil
      subst henil
      rw [hL2, hIW.1, hIW.2, hexFracParse_dot, hFW.1, hFW.2]
      dsimp only
      rw [if_neg hnemp, pExpParse_nil]
      simp only [Option.map_none', Option.getD_none]
      refine congrArg some (Prod.ext_iff.mpr ⟨rfl, ?_⟩)
      simp only [List.length_append, List.length_cons, List.length_nil]
      omega
    · subst hx2
      subst he2
      rw [hL2, hIW.1, hIW.2, hexFracParse_dot, hFW.1, hFW.2]
      dsimp only
      rw [if_neg hnemp, pExpParse_cons pc _ hc2,
        expTail_complete g2 eds eneg hsg2 hne2 hdg2]
      simp only [Option.map_some', Option.getD_some]
      refine congrArg some (Prod.ext_iff.mpr ⟨rfl, ?_⟩)
      simp only [List.length_append, List.length_cons, List.length_nil]
      omega

theorem hexParse_none_decimal {m i f ex : List Char} {e : ℤ}
    (hman : MantissaPart m i f) (hexp : ExpPart ex e) :
    hexParse (m ++ ex) = none := by
  have hmne := mantissa_ne_nil hman
  obtain ⟨hdi, hdf, hnemp, hshape⟩ := hman
  cases m with
  | nil => exact absurd rfl hmne
  | cons c m' =>
    have hmemfact : ∀ c2 ∈ m' ++ ex, c2 ≠ 'x' ∧ c2 ≠ 'X' := by
      intro c2 hc2
      rw [List.mem_append] at hc2
      rcases hc2 with hc2 | hc2
      · have hmm : c2 ∈ c :: m' := List.mem_cons_of_mem c hc2
        rcases hshape with ⟨hmi, _⟩ | hmi
        · have : c2 ∈ i := hmi ▸ hmm
          exact ⟨digit_ne (hdi c2 this) (by decide), digit_ne (hdi c2 this) (by decide)⟩
        · have : c2 ∈ i ++ '.' :: f := hmi ▸ hmm
          rw [List.mem_append, List.mem_cons] at this
          rcases this with hin | hin | hin
          · exact ⟨digit_ne (hdi c2 hin) (by decide), digit_ne (hdi c2 hin) (by decide)⟩
          · subst hin
            exact ⟨by decide, by decide⟩
          · exact ⟨digit_ne (hdf c2 hin) (by decide), digit_ne (hdf c2 hin) (by decide)⟩
      · rcases hexp with ⟨hexnil, _⟩ | ⟨ec, g2, eds, eneg, hc2e, hsg2, _, hdg2, hx2, _⟩
        · subst hexnil
          exact absurd hc2 (List.not_mem_nil c2)
        · subst hx2
          rw [List.mem_cons, List.mem_append] at hc2
          rcases hc2 with hc2 | hc2 | hc2
          · subst hc2
            rcases hc2e with h | h <;> subst h <;> exact ⟨by decide, by decide⟩
          · rcases hsg2 with ⟨hg0, _⟩ | ⟨hg0, _⟩ | ⟨hg0, _⟩ <;> subst hg0
            · exact absurd hc2 (List.not_mem_nil c2)
            · rw [List.mem_singleton] at hc2
              subst hc2
              exact ⟨by decide, by decide⟩
            · rw [List.mem_singleton] at hc2
              subst hc2
              exact ⟨by decide, by decide⟩
          · exact ⟨digit_ne (hdg2 c2 hc2) (by decide), digit_ne (hdg2 c2 hc2) (by decide)⟩
    by_cases hc0 : c = '0'
    · subst hc0
      cases hrest : m' ++ ex with
      | nil =>
        rw [List.cons_append, hrest]
        exact hexParse_single '0'
      | cons c2 tail =>
        have h2 := hmemfact c2 (by rw [hrest]; exact List.mem_cons_self _ _)
        rw [List.cons_append, hrest]
        exact hexParse_none_second h2.1 h2.2
    · rw [List.cons_append]
      exact hexParse_none_first hc0

/-! Completeness of `stofModel` on each of the four token classes. -/

theorem stofModel_inf_complete (w g seq : List Char) (neg : Bool)
    (hspace : SpaceList w) (hsign : SignList g neg)
    (hsp : SpellsCI seq ['i', 'n', 'f'] ∨
      SpellsCI seq ['i', 'n', 'f', 'i', 'n', 'i', 't', 'y']) :
    stofModel (w ++ g ++ seq) = CppNum.ok (FloatVal.inf neg) (w ++ g ++ seq).length := by
  have hhead : ∃ c r, seq = c :: r ∧ lowerCh c = 'i' := by
    rcases hsp with h | h
    · exact spells_head h
    · exact spells_head h
  obtain ⟨c0, r0, hseq, hc0⟩ := hhead
  have hfacts := lower_in_facts (Or.inl rfl) hc0
  have hheadq : ∀ c, seq.head? = some c → c = c0 := by
    intro c hc
    rw [hseq] at hc
    injection hc with hcc
    exact hcc.symm
  have hss := sign_step g seq neg hsign (fun c hc => by
    rw [hheadq c hc]
    exact ⟨hfacts.2.1, hfacts.2.2⟩)
  have hthead : ∀ c, (g ++ seq).head? = some c → isSpaceCh c = false := by
    intro c hc
    rcases hsign with ⟨hg, _⟩ | ⟨hg, _⟩ | ⟨hg, _⟩ <;> subst hg
    · rw [List.nil_append] at hc
      rw [hheadq c hc]
      exact hfacts.1
    · simp at hc
      subst hc
      decide
    · simp at hc
      subst hc
      decide
  have hTW := takeWhile_append_eq isSpaceCh w (g ++ seq) hspace hthead
  have hL : w ++ g ++ seq = w ++ (g ++ seq) := by
    simp [List.append_assoc]
  rw [hL]
  simp only [stofModel]
  rw [hTW.1, hTW.2, hss.2.1, hss.1, hss.2.2.1]
  rcases hsp with hsp | hsp
  · have hsl : seq.length = 3 := spells_length hsp
    rw [infParse_inf hsp]
    dsimp only
    congr 1
    rw [hss.2.2.2]
    simp only [List.length_append]
    omega
  · have hsl : seq.length = 8 := spells_length hsp
    rw [infParse_infinity hsp]
    dsimp only
    congr 1
    rw [hss.2.2.2]
    simp only [List.length_append]
    omega

theorem stofModel_nan_complete (w g n3 rest : List Char) (neg : Bool)
    (hspace : SpaceList w) (hsign : SignList g neg)
    (hsp : SpellsCI n3 ['n', 'a', 'n'])
    (hrest : rest = [] ∨ ∃ inner, rest = '(' :: (inner ++ [')']) ∧
      ∀ c ∈ inner, isNanChar c = true) :
    stofModel (w ++ g ++ (n3 ++ rest)) =
      CppNum.ok FloatVal.nan (w ++ g ++ (n3 ++ rest)).length := by
  obtain ⟨c0, r0, hn3, hc0⟩ := spells_head hsp
  have hfacts := lower_in_facts (Or.inr rfl) hc0
  have hheadq : ∀ c, (n3 ++ rest).head? = some c → c = c0 := by
    intro c hc
    rw [hn3, List.cons_append] at hc
    injection hc with hcc
    exact hcc.symm
  have hss := sign_step g (n3 ++ rest) neg hsign (fun c hc => by
    rw [hheadq c hc]
    exact ⟨hfacts.2.1, hfacts.2.2⟩)
  have hthead : ∀ c, (g ++ (n3 ++ rest)).head? = some c → isSpaceCh c = false := by
    intro c hc
    rcases hsign with ⟨hg, _⟩ | ⟨hg, _⟩ | ⟨hg, _⟩ <;> subst hg
    · rw [List.nil_append] at hc
      rw [hheadq c hc]
      exact hfacts.1
    · simp at hc
      subst hc
      decide
    · simp at hc
      subst hc
      decide
  have hTW := takeWhile_append_eq isSpaceCh w (g ++ (n3 ++ rest)) hspace hthead
  have hinfN : infParse (n3 ++ rest) = none := infParse_none_head (fun c hc => by
    rw [hheadq c hc, hc0]
    decide)
  have hL : w ++ g ++ (n3 ++ rest) = w ++ (g ++ (n3 ++ rest)) := by
    simp [List.append_assoc]
  rw [hL]
  simp only [stofModel]
  rw [hTW.1, hTW.2, hss.2.1, hss.2.2.1, hinfN, nanParse_complete hsp hrest]
  dsimp only
  congr 1
  rw [hss.2.2.2]
  simp only [List.length_append]
  omega

theorem stofModel_hex_complete (w g : List Char) (xc : Char) (m ex hi hf : List Char)
    (neg : Bool) (e : ℤ)
    (hspace : SpaceList w) (hsign : SignList g neg) (hxc : xc = 'x' ∨ xc = 'X')
    (hman : HexMantissa m hi hf) (hexp : PExpPart ex e) :
    stofModel (w ++ g ++ ('0' :: xc :: m) ++ ex) =
      if floatMax < (if neg then (-1 : ℚ) else 1) *
            ((hexToNat (hi ++ hf) : ℚ) * 2 ^ (e - 4 * (hf.length : ℤ))) ∨
          (if neg then (-1 : ℚ) else 1) *
            ((hexToNat (hi ++ hf) : ℚ) * 2 ^ (e - 4 * (hf.length : ℤ))) < -floatMax
      then CppNum.range
      else CppNum.ok (FloatVal.fin ((if neg then (-1 : ℚ) else 1) *
          ((hexToNat (hi ++ hf) : ℚ) * 2 ^ (e - 4 * (hf.length : ℤ)))))
        (w ++ g ++ ('0' :: xc :: m) ++ ex).length := by
  have hss := sign_step g ('0' :: xc :: (m ++ ex)) neg hsign (fun c hc => by
    injection hc with hcc
    subst hcc
    exact ⟨by decide, by decide⟩)
  have hthead : ∀ c, (g ++ ('0' :: xc :: (m ++ ex))).head? = some c →
      isSpaceCh c = false := by
    intro c hc
    rcases hsign with ⟨hg, _⟩ | ⟨hg, _⟩ | ⟨hg, _⟩ <;> subst hg
    · rw [List.nil_append] at hc
      injection hc with hcc
      subst hcc
      decide
    · simp at hc
      subst hc
      decide
    · simp at hc
      subst hc
      decide
  have hTW := takeWhile_append_eq isSpaceCh w (g ++ ('0' :: xc :: (m ++ ex))) hspace hthead
  have hinfN : infParse ('0' :: xc :: (m ++ ex)) = none :=
    infParse_none_head (fun c hc => by
      injection hc with hcc
      subst hcc
      decide)
  have hnanN : nanParse ('0' :: xc :: (m ++ ex)) = none :=
    nanParse_none_head (fun c hc => by
      injection hc with hcc
      subst hcc
      decide)
  have hL : w ++ g ++ ('0' :: xc :: m) ++ ex = w ++ (g ++ ('0' :: xc :: (m ++ ex))) := by
    simp [List.append_assoc]
  rw [hL]
  simp only [stofModel]
  rw [hTW.1, hTW.2, hss.2.1, hss.1, hss.2.2.1, hinfN, hnanN,
    hexParse_complete xc m ex hi hf e hxc hman hexp]
  dsimp only
  refine if_congr Iff.rfl rfl ?_
  congr 1
  rw [hss.2.2.2]
  simp only [List.length_append, List.length_cons]
  omega

theorem stofModel_complete (w g m i f ex : List Char) (neg : Bool) (e : ℤ)
    (hspace : SpaceList w) (hsign : SignList g neg) (hman : MantissaPart m i f)
    (hexp : ExpPart ex e) :
    stofModel (w ++ g ++ m ++ ex) =
      if floatMax < (if neg then (-1 : ℚ) else 1) *
            ((digitsToNat (i ++ f) : ℚ) * 10 ^ (e - (f.length : ℤ))) ∨
          (if neg then (-1 : ℚ) else 1) *
            ((digitsToNat (i ++ f) : ℚ) * 10 ^ (e - (f.length : ℤ))) < -floatMax
      then CppNum.range
      else CppNum.ok (FloatVal.fin ((if neg then (-1 : ℚ) else 1) *
          ((digitsToNat (i ++ f) : ℚ) * 10 ^ (e - (f.length : ℤ)))))
        (w ++ g ++ m ++ ex).length := by
  obtain ⟨hdi, hdf, hnemp, hshape⟩ := hman
  have hexhead := exppart_head hexp
  have hmne : m ≠ [] := mantissa_ne_nil ⟨hdi, hdf, hnemp, hshape⟩
  have hmhead := mantissa_head ⟨hdi, hdf, hnemp, hshape⟩
  have hmexhead : ∀ c, (m ++ ex).head? = some c → isDigitCh c = true ∨ c = '.' := by
    intro c hc
    cases m with
    | nil => exact absurd rfl hmne
    | cons a r =>
      simp only [List.cons_append, List.head?_cons] at hc
      injection hc with hac
      subst hac
      exact hmhead _ rfl
  have hss := sign_step g (m ++ ex) neg hsign
    (fun c hc => digit_dot_not_sign (hmexhead c hc))
  have hthead : ∀ c, (g ++ (m ++ ex)).head? = some c → isSpaceCh c = false := by
    intro c hc
    rcases hsign with ⟨hg, _⟩ | ⟨hg, _⟩ | ⟨hg, _⟩ <;> subst hg
    · simp only [List.nil_append] at hc
      rcases hmexhead c hc with hd | hd
      · exact digit_not_space hd
      · subst hd
        decide
    · simp at hc
      subst hc
      decide
    · simp at hc
      subst hc
      decide
  have hTW := takeWhile_append_eq isSpaceCh w (g ++ (m ++ ex)) hspace hthead
  have hinfN : infParse (m ++ ex) = none :=
    infParse_none_head (fun c hc => (digit_dot_lower_ne (hmexhead c hc)).1)
  have hnanN : nanParse (m ++ ex) = none :=
    nanParse_none_head (fun c hc => (digit_dot_lower_ne (hmexhead c hc)).2)
  have hhexN : hexParse (m ++ ex) = none :=
    hexParse_none_decimal ⟨hdi, hdf, hnemp, hshape⟩ hexp
  have hL : w ++ g ++ m ++ ex = w ++ (g ++ (m ++ ex)) := by
    simp only [List.append_assoc]
  rw [hL]
  have hexheadD : ∀ c, ex.head? = some c → isDigitCh c = false :=
    fun c hc => (hexhead c hc).1
  rcases hshape with ⟨hmi, hf⟩ | hmB
  · -- digits-only mantissa
    subst hf
    subst hmi
    have hIW := takeWhile_append_eq isDigitCh m ex hdi hexheadD
    have hfr : fracParse ex = ([], ex, 0) :=
      fracParse_nodot ex (fun c hc => (hexhead c hc).2.2)
    rcases hexp with ⟨hexnil, henil⟩ | ⟨ec, g2, eds, eneg, hc2, hsg2, hne2, hdg2, hx2, he2⟩
    · subst hexnil
      subst henil
      simp only [stofModel]
      rw [hTW.1, hTW.2, hss.2.1, hss.1, hss.2.2.1, hinfN, hnanN, hhexN,
        hIW.1, hIW.2, hfr]
      dsimp only
      rw [if_neg hnemp, expParse_nil]
      simp only [Option.map_none', Option.getD_none]
      rw [hss.2.2.2]
      refine if_congr Iff.rfl rfl ?_
      congr 1
      simp only [List.length_append, List.length_nil]
      omega
    · subst hx2
      subst he2
      simp only [stofModel]
      rw [hTW.1, hTW.2, hss.2.1, hss.1, hss.2.2.1, hinfN, hnanN, hhexN,
        hIW.1, hIW.2, hfr]
      dsimp only
      rw [if_neg hnemp, expParse_cons ec _ hc2,
        expTail_complete g2 eds eneg hsg2 hne2 hdg2]
      simp only [Option.map_some', Option.getD_some]
      rw [hss.2.2.2]
      refine if_congr Iff.rfl rfl ?_
      congr 1
      simp only [List.length_append, List.length_cons]
      omega
  · -- mantissa with a dot
    subst hmB
    have hIW := takeWhile_append_eq isDigitCh i ('.' :: (f ++ ex)) hdi
      (by intro c hc; injection hc with hcc; subst hcc; decide)
    have hFW := takeWhile_append_eq isDigitCh f ex hdf hexheadD
    have hL2 : (i ++ '.' :: f) ++ ex = i ++ '.' :: (f ++ ex) := by
      simp [List.append_assoc]
    rcases hexp with ⟨hexnil, henil⟩ | ⟨ec, g2, eds, eneg, hc2, hsg2, hne2, hdg2, hx2, he2⟩
    · subst hexnil
      subst henil
      simp only [stofModel]
      rw [hTW.1, hTW.2, hss.2.1, hss.1, hss.2.2.1, hinfN, hnanN, hhexN,
        hL2, hIW.1, hIW.2, fracParse_dot, hFW.1, hFW.2]
      dsimp only
      rw [if_neg hnemp, expParse_nil]
      simp only [Option.map_none', Option.getD_none]
      rw [hss.2.2.2]
      refine if_congr Iff.rfl rfl ?_
      congr 1
      simp only [List.length_append, List.length_cons, List.length_nil]
      omega
    · subst hx2
      subst he2
      simp only [stofModel]
      rw [hTW.1, hTW.2, hss.2.1, hss.1, hss.2.2.1, hinfN, hnanN, hhexN,
        hL2, hIW.1, hIW.2, fracParse_dot, hFW.1, hFW.2]
      dsimp only
      rw [if_neg hnemp, expParse_cons ec _ hc2,
        expTail_complete g2 eds eneg hsg2 hne2 hdg2]
      simp only [Option.map_some', Option.getD_some]
      rw [hss.2.2.2]
      refine if_congr Iff.rfl rfl ?_
      congr 1
      simp only [List.length_append, List.length_cons]
      omega

theorem safe_stof_iff (s : String) (fv : FloatVal) :
    safe_stof s = some fv ↔ IsCFloatToken s fv := by
  constructor
  · intro h
    unfold safe_stof at h
    rcases hm : stofModel s.data with ⟨v', pos⟩ | _ | _ <;> rw [hm] at h <;>
      [skip; exact absurd h (by simp); exact absurd h (by simp)]
    dsimp only at h
    by_cases hpos : pos = s.data.length
    case neg =>
      rw [if_neg hpos] at h
      exact absurd h (by simp)
    rw [if_pos hpos] at h
    injection h with hv'
    subst hv'
    simp only [stofModel] at hm
    set w := s.data.takeWhile isSpaceCh with hw
    set t := s.data.dropWhile isSpaceCh with ht
    set sgnB := (headIs t '-' || headIs t '+') with hsgnB
    set sgnF := (if headIs t '-' = true then (-1 : ℚ) else 1) with hsgnF
    set sgnN := (if sgnB = true then (1 : ℕ) else 0) with hsgnN
    set t2 := t.drop sgnN with ht2
    have hsplit : s.data = w ++ t := (List.takeWhile_append_dropWhile isSpaceCh s.data).symm
    have hspace : SpaceList w := fun c hc => List.mem_takeWhile_imp hc
    have hsn : ∃ g, SignList g (headIs t '-') ∧ t = g ++ t2 ∧ sgnN = g.length := by
      by_cases hminus : headIs t '-' = true
      · rcases headIs_eq_true.mp hminus with ⟨r, hr⟩
        have hsB : sgnB = true := by rw [hsgnB, hminus]; simp
        have hN : sgnN = 1 := by rw [hsgnN, hsB]; rfl
        refine ⟨['-'], ?_, ?_, ?_⟩
        · rw [hminus]
          exact Or.inr (Or.inr ⟨rfl, rfl⟩)
        · rw [ht2, hr, hN]
          rfl
        · rw [hN]
          rfl
      · by_cases hplus : headIs t '+' = true
        · rcases headIs_eq_true.mp hplus with ⟨r, hr⟩
          have hsB : sgnB = true := by rw [hsgnB, hplus]; simp
          have hN : sgnN = 1 := by rw [hsgnN, hsB]; rfl
          refine ⟨['+'], ?_, ?_, ?_⟩
          · simp only [Bool.not_eq_true] at hminus
            rw [hminus]
            exact Or.inr (Or.inl ⟨rfl, rfl⟩)
          · rw [ht2, hr, hN]
            rfl
          · rw [hN]
            rfl
        · simp only [Bool.not_eq_true] at hminus hplus
          have hsB : sgnB = false := by rw [hsgnB, hminus, hplus]; rfl
          have hN : sgnN = 0 := by rw [hsgnN, hsB]; rfl
          refine ⟨[], ?_, ?_, ?_⟩
          · rw [hminus]
            exact Or.inl ⟨rfl, rfl⟩
          · rw [ht2, hN]
            rfl
          · rw [hN]
            rfl
    rcases hsn with ⟨g, hsg, htg, hglen⟩
    have h1len : s.data.length = w.length + t.length := by
      rw [hsplit]
      simp
    have h2len : t.length = g.length + t2.length := by
      rw [htg]
      simp
    split at hm
    · -- infinity branch
      rename_i n hinf
      injection hm with hvv hp
      rcases infParse_some hinf with ⟨pre, rest, ht2pre, hplen, hsp⟩
      have h3len : t2.length = pre.length + rest.length := by
        rw [ht2pre]
        simp
      have hrestnil : rest = [] := by
        have hz : rest.length = 0 := by omega
        exact List.length_eq_zero.mp hz
      rw [← hvv]
      refine Or.inr (Or.inl ⟨headIs t '-', rfl, w, g, pre, ?_, hspace, hsg, hsp⟩)
      rw [hsplit, htg, ht2pre, hrestnil, List.append_nil]
      simp [List.append_assoc]
    · -- NaN branch
      rename_i hinf
      split at hm
      · rename_i n hnan
        injection hm with hvv hp
        rcases nanParse_some hnan with ⟨n3, r, ht2n3, hmap, hshape2⟩
        have hn3len : n3.length = 3 := spells_length hmap
        have h3len : t2.length = n3.length + r.length := by
          rw [ht2n3]
          simp
        rw [← hvv]
        rcases hshape2 with hn3v | ⟨inner, r2, hreq, hin, hn5⟩
        · have hrnil : r = [] := by
            have hz : r.length = 0 := by omega
            exact List.length_eq_zero.mp hz
          refine Or.inr (Or.inr ⟨rfl, w, g, headIs t '-', n3, [], ?_, hspace, hsg,
            hmap, Or.inl rfl⟩)
          rw [hsplit, htg, ht2n3, hrnil]
          simp [List.append_assoc]
        · have h4len : r.length = 2 + inner.length + r2.length := by
            rw [hreq]
            simp [List.length_append, List.length_cons]
            omega
          have hr2nil : r2 = [] := by
            have hz : r2.length = 0 := by omega
            exact List.length_eq_zero.mp hz
          subst hr2nil
          refine Or.inr (Or.inr ⟨rfl, w, g, headIs t '-', n3, '(' :: (inner ++ [')']),
            ?_, hspace, hsg, hmap, Or.inr ⟨inner, rfl, hin⟩⟩)
          rw [hsplit, htg, ht2n3, hreq]
          simp [List.append_assoc]
      · -- hexadecimal branch
        rename_i hnan
        split at hm
        · rename_i q n hhex
          split at hm
          · exact CppNum.noConfusion hm
          · rename_i hr2
            injection hm with hvv hp
            rcases hexParse_some hhex with
              ⟨xc, mH, exH, restH, hiH, hfH, e, hxc, ht2hex, hmanH, hexpH, hq, hn⟩
            have h3len : t2.length = 2 + mH.length + exH.length + restH.length := by
              rw [ht2hex]
              simp [List.length_append, List.length_cons]
              omega
            have hrestnil : restH = [] := by
              have hz : restH.length = 0 := by omega
              exact List.length_eq_zero.mp hz
            simp only [not_or, not_lt] at hr2
            rw [← hvv]
            refine Or.inl ⟨sgnF * q, rfl, Or.inr ⟨w, g, xc, mH, exH, headIs t '-',
              hiH, hfH, e, ?_, hspace, hsg, hxc, hmanH, hexpH, ?_⟩, ?_, ?_⟩
            · rw [hsplit, htg, ht2hex, hrestnil]
              simp [List.append_assoc]
            · rw [hsgnF, hq]
            · exact hr2.2
            · exact hr2.1
        · -- decimal branch
          rename_i hhex
          set ipart := t2.takeWhile isDigitCh with hipart
          set t3 := t2.dropWhile isDigitCh with ht3
          set fr := fracParse t3 with hfr
          have hdigI : DigitList ipart := fun c hc => List.mem_takeWhile_imp hc
          have hsplitI : t2 = ipart ++ t3 := (List.takeWhile_append_dropWhile isDigitCh t2).symm
          have h3len : t2.length = ipart.length + t3.length := by
            have := congrArg List.length hsplitI
            simpa using this
          by_cases hdot : headIs t3 '.' = true
          · -- fractional part present
            rcases headIs_eq_true.mp hdot with ⟨r, hr3⟩
            have hfrEq : fr = (r.takeWhile isDigitCh, r.dropWhile isDigitCh,
                1 + (r.takeWhile isDigitCh).length) := by
              rw [hfr, hr3, fracParse_dot]
            rw [hfrEq] at hm
            dsimp only at hm
            set fp := r.takeWhile isDigitCh with hfp
            set t5 := r.dropWhile isDigitCh with ht5
            have hdigF : DigitList fp := fun c hc => List.mem_takeWhile_imp hc
            have hsplitF : r = fp ++ t5 := (List.takeWhile_append_dropWhile isDigitCh r).symm
            have h4len : t3.length = 1 + fp.length + t5.length := by
              rw [hr3]
              have := congrArg List.length hsplitF
              simp at this
              simp [this]
              omega
            rcases he : expParse t5 with _ | ⟨e0, n0⟩ <;> rw [he] at hm <;>
              simp only [Option.map_none', Option.getD_none, Option.map_some',
                Option.getD_some] at hm
            · -- no exponent
              split at hm
              · exact CppNum.noConfusion hm
              · rename_i hne1
                split at hm
                · exact CppNum.noConfusion hm
                · rename_i hr2
                  injection hm with hvv hp
                  have ht5nil : t5 = [] := by
                    have hz : t5.length = 0 := by omega
                    exact List.length_eq_zero.mp hz
                  simp only [not_or, not_lt] at hr2
                  rw [← hvv]
                  refine Or.inl ⟨_, rfl, Or.inl ⟨w, g, ipart ++ '.' :: fp, ipart, fp,
                    [], headIs t '-', 0,
                    ?_, hspace, hsg, ⟨hdigI, hdigF, hne1, Or.inr rfl⟩,
                    Or.inl ⟨rfl, rfl⟩, ?_⟩, ?_, ?_⟩
                  · rw [hsplit, htg, hsplitI, hr3, hsplitF, ht5nil]
                    simp [List.append_assoc]
                  · rw [hsgnF]
                  · exact hr2.2
                  · exact hr2.1
            · -- exponent consumed
              rcases expParse_some he with ⟨ec, rE, hcE, hT5, hTail⟩
              rcases expTail_some hTail with
                ⟨gE, edsE, enegE, restE, hsgE, hneE, hdgE, hrEq, hE0, hN0⟩
              split at hm
              · exact CppNum.noConfusion hm
              · rename_i hne1
                split at hm
                · exact CppNum.noConfusion hm
                · rename_i hr2
                  injection hm with hvv hp
                  have h5len : t5.length = 1 + gE.length + edsE.length + restE.length := by
                    rw [hT5, hrEq]
                    simp [List.length_append]
                    omega
                  have hrestnil : restE = [] := by
                    have hz : restE.length = 0 := by omega
                    exact List.length_eq_zero.mp hz
                  simp only [not_or, not_lt] at hr2
                  rw [← hvv]
                  refine Or.inl ⟨_, rfl, Or.inl ⟨w, g, ipart ++ '.' :: fp, ipart, fp,
                    ec :: (gE ++ edsE), headIs t '-', e0,
                    ?_, hspace, hsg, ⟨hdigI, hdigF, hne1, Or.inr rfl⟩,
                    Or.inr ⟨ec, gE, edsE, enegE, hcE, hsgE, hneE, hdgE, rfl, hE0⟩, ?_⟩,
                    ?_, ?_⟩
                  · rw [hsplit, htg, hsplitI, hr3, hsplitF, hT5, hrEq, hrestnil]
                    simp [List.append_assoc]
                  · rw [hsgnF]
                  · exact hr2.2
                  · exact hr2.1
          · -- no fractional part
            simp only [Bool.not_eq_true] at hdot
            have hfrEq : fr = ([], t3, 0) := by
              rw [hfr]
              exact fracParse_nodot t3 (fun c hc => headIs_false_ne hdot hc)
            rw [hfrEq] at hm
            dsimp only at hm
            rcases he : expParse t3 with _ | ⟨e0, n0⟩ <;> rw [he] at hm <;>
              simp only [Option.map_none', Option.getD_none, Option.map_some',
                Option.getD_some] at hm
            · split at hm
              · exact CppNum.noConfusion hm
              · rename_i hne1
                split at hm
                · exact CppNum.noConfusion hm
                · rename_i hr2
                  injection hm with hvv hp
                  have ht3nil : t3 = [] := by
                    have hz : t3.length = 0 := by omega
                    exact List.length_eq_zero.mp hz
                  simp only [not_or, not_lt] at hr2
                  rw [← hvv]
                  refine Or.inl ⟨_, rfl, Or.inl ⟨w, g, ipart, ipart, [], [],
                    headIs t '-', 0,
                    ?_, hspace, hsg,
                    ⟨hdigI, fun c hc => absurd hc (List.not_mem_nil c),
                      fun hcc => hne1 ⟨hcc.1, trivial⟩, Or.inl ⟨rfl, rfl⟩⟩,
                    Or.inl ⟨rfl, rfl⟩, ?_⟩, ?_, ?_⟩
                  · rw [hsplit, htg, hsplitI, ht3nil]
                    simp [List.append_assoc]
                  · rw [hsgnF]
                  · exact hr2.2
                  · exact hr2.1
            · rcases expParse_some he with ⟨ec, rE, hcE, hT5, hTail⟩
              rcases expTail_some hTail with
                ⟨gE, edsE, enegE, restE, hsgE, hneE, hdgE, hrEq, hE0, hN0⟩
              split at hm
              · exact CppNum.noConfusion hm
              · rename_i hne1
                split at hm
                · exact CppNum.noConfusion hm
                · rename_i hr2
                  injection hm with hvv hp
                  have h5len : t3.length = 1 + gE.length + edsE.length + restE.length := by
                    rw [hT5, hrEq]
                    simp [List.length_append]
                    omega
                  have hrestnil : restE = [] := by
                    have hz : restE.length = 0 := by omega
                    exact List.length_eq_zero.mp hz
                  simp only [not_or, not_lt] at hr2
                  rw [← hvv]
                  refine Or.inl ⟨_, rfl, Or.inl ⟨w, g, ipart, ipart, [],
                    ec :: (gE ++ edsE), headIs t '-', e0,
                    ?_, hspace, hsg,
                    ⟨hdigI, fun c hc => absurd hc (List.not_mem_nil c),
                      fun hcc => hne1 ⟨hcc.1, trivial⟩, Or.inl ⟨rfl, rfl⟩⟩,
                    Or.inr ⟨ec, gE, edsE, enegE, hcE, hsgE, hneE, hdgE, rfl, hE0⟩, ?_⟩,
                    ?_, ?_⟩
                  · rw [hsplit, htg, hsplitI, hT5, hrEq, hrestnil]
                    simp [List.append_assoc]
                  · rw [hsgnF]
                  · exact hr2.2
                  · exact hr2.1
  · intro h
    rcases h with ⟨v, hfv, hform, hrange⟩ | ⟨neg, hfv, hinf⟩ | ⟨hfv, hnan⟩
    · subst hfv
      rcases hform with hdec | hhex
      · rcases hdec with ⟨w, g, m, i, f, ex, neg, e, hsplit, hspace, hsign, hman, hexp, hv⟩
        have hcalc := stofModel_complete w g m i f ex neg e hspace hsign hman hexp
        unfold safe_stof
        rw [hsplit, hcalc, if_neg (by rw [← hv]; push_neg; exact ⟨hrange.2, hrange.1⟩)]
        dsimp only
        rw [if_pos rfl, ← hv]
      · rcases hhex with
          ⟨w, g, xc, m, ex, neg, hi, hf, e, hsplit, hspace, hsign, hxc, hman, hexp, hv⟩
        have hcalc := stofModel_hex_complete w g xc m ex hi hf neg e hspace hsign hxc hman hexp
        unfold safe_stof
        rw [hsplit, hcalc, if_neg (by rw [← hv]; push_neg; exact ⟨hrange.2, hrange.1⟩)]
        dsimp only
        rw [if_pos rfl, ← hv]
    · subst hfv
      rcases hinf with ⟨w, g, seq, hsplit, hspace, hsign, hsp⟩
      have hcalc := stofModel_inf_complete w g seq neg hspace hsign hsp
      unfold safe_stof
      rw [hsplit, hcalc]
      dsimp only
      rw [if_pos rfl]
    · subst hfv
      rcases hnan with ⟨w, g, neg, n3, rest, hsplit, hspace, hsign, hsp, hrest⟩
      have hcalc := stofModel_nan_complete w g n3 rest neg hspace hsign hsp hrest
      unfold safe_stof
      rw [hsplit, hcalc]
      dsimp only
      rw [if_pos rfl]


/-! ### Camera invariants -/

theorem altitude_inv (cfg : CamCfg) (ops : List TiltOp) :
    ∀ cam : Camera, -cfg.altitude_limit ≤ cam.altitude →
      cam.altitude ≤ cfg.altitude_limit →
      -cfg.altitude_limit ≤ (applyTilts cfg cam ops).altitude ∧
        (applyTilts cfg cam ops).altitude ≤ cfg.altitude_limit := by
  induction ops with
  | nil => intro cam h1 h2; exact ⟨h1, h2⟩
  | cons op rest ih =>
    intro cam h1 h2
    have hstep : -cfg.altitude_limit ≤ (applyTilt cfg cam op).altitude ∧
        (applyTilt cfg cam op).altitude ≤ cfg.altitude_limit := by
      cases op with
      | up d =>
        simp only [applyTilt, Camera.rotate_up]
        exact ⟨le_max_left _ _, max_le (by linarith) (min_le_right _ _)⟩
      | down d =>
        simp only [applyTilt, Camera.rotate_down]
        exact ⟨le_max_left _ _, max_le (by linarith) (min_le_right _ _)⟩
    exact ih (applyTilt cfg cam op) hstep.1 hstep.2

/-- C5: from any starting altitude inside the clamp interval, no sequence of
`rotate_up`/`rotate_down` calls (with default or caller-supplied deltas) can
bring the altitude to or beyond +90° or −90°, because every step clamps to
the configured interval strictly inside ±90°. -/
theorem C5_altitude_never_reaches_90 (cfg : CamCfg) (cam : Camera)
    (ops : List TiltOp) (hL : cfg.altitude_limit < 90)
    (h1 : -cfg.altitude_limit ≤ cam.altitude)
    (h2 : cam.altitude ≤ cfg.altitude_limit) :
    (applyTilts cfg cam ops).altitude < 90 ∧
      -90 < (applyTilts cfg cam ops).altitude := by
  have h := altitude_inv cfg ops cam h1 h2
  constructor <;> linarith [h.1, h.2]

theorem C5_witness :
    (applyTilts wCfg (Camera.init 1)
        [TiltOp.up 200, TiltOp.down 500, TiltOp.up 3]).altitude < 90 ∧
      -90 < (applyTilts wCfg (Camera.init 1)
        [TiltOp.up 200, TiltOp.down 500, TiltOp.up 3]).altitude :=
  C5_altitude_never_reaches_90 wCfg (Camera.init 1)
    [TiltOp.up 200, TiltOp.down 500, TiltOp.up 3]
    (by norm_num [wCfg]) (by norm_num [wCfg, Camera.init])
    (by norm_num [wCfg, Camera.init])

theorem zoom_inv (cfg : CamCfg) (hstep : 0 < cfg.zoom_step) (ops : List ZoomOp) :
    ∀ cam : Camera, cfg.zoom_min ≤ cam.zoom →
      cfg.zoom_min ≤ (applyZooms cfg cam ops).zoom := by
  induction ops with
  | nil => intro cam h0; exact h0
  | cons op rest ih =>
    intro cam h0
    have hstep1 : cfg.zoom_min ≤ (applyZoom cfg cam op).zoom := by
      cases op with
      | zin =>
        simp only [applyZoom, Camera.zoom_in]
        linarith
      | zout =>
        simp only [applyZoom, Camera.zoom_out]
        exact le_max_right _ _
    exact ih (applyZoom cfg cam op) hstep1


/-- The float token `-1` parses to the value −1: negative zoom values pass
`safe_stof` unchanged. -/
theorem safe_stof_neg_one : safe_stof "-1" = some (FloatVal.fin (-1)) := by
  refine (safe_stof_iff "-1" (FloatVal.fin (-1))).mpr
    (Or.inl ⟨-1, rfl, Or.inl ⟨[], ['-'], ['1'], ['1'], [], [], true, 0,
      rfl, fun c hc => absurd hc (List.not_mem_nil c),
      Or.inr (Or.inr ⟨rfl, rfl⟩),
      ⟨by intro c hc; simp only [List.mem_singleton] at hc; subst hc; decide,
        fun c hc => absurd hc (List.not_mem_nil c), by simp,
        Or.inl ⟨rfl, rfl⟩⟩,
      Or.inl ⟨rfl, rfl⟩, ?_⟩, ?_, ?_⟩)
  · have h1 : digitsToNat ['1'] = 1 := by decide
    simp [h1]
  · norm_num [floatMax]
  · norm_num [floatMax]

/-- C4 counterexample: the claim fails on the code in two places.  First,
`parse_args` accepts `-z -1` — the zoom token is consumed unconditionally
and `safe_stof` accepts a negative value — so the camera is constructed with
the non-positive zoom −1.  Second, one `zoom_out` from a zoom strictly
between the minimum and minimum + step lands exactly on the configured
minimum, so the zoom does reach it. -/
theorem C4_counterexample :
    parse_args 35 1 ["-z", "-1", "cube.obj"] =
      Except.ok ⟨"cube.obj", false, false, false, false, false, false, false,
        FloatVal.fin 35, FloatVal.fin (-1)⟩ ∧
    (Camera.init (-1)).zoom ≤ 0 ∧
    ((Camera.init (1/2)).zoom_out wCfg).zoom = wCfg.zoom_min := by
  refine ⟨?_, by norm_num [Camera.init], ?_⟩
  · simp only [parse_args, parseLoop, Args.init, safe_stof_neg_one, strHead]
    rfl
  · simp only [Camera.init, Camera.zoom_out, wCfg]
    norm_num

/-- C4 (amended): the zoom `parse_args` hands to the camera is whatever
value the `-z` token denotes and need not be positive; but starting from
any zoom at or above the configured strictly positive minimum, every
sequence of `zoom_in`/`zoom_out` operations keeps the zoom at or above that
minimum — and hence strictly positive — though it can land exactly on the
minimum. -/
theorem C4_amended_zoom_bounded (cfg : CamCfg) (cam : Camera) (ops : List ZoomOp)
    (hmin : 0 < cfg.zoom_min) (hstep : 0 < cfg.zoom_step)
    (h0 : cfg.zoom_min ≤ cam.zoom) :
    cfg.zoom_min ≤ (applyZooms cfg cam ops).zoom ∧
      0 < (applyZooms cfg cam ops).zoom := by
  have h := zoom_inv cfg hstep ops cam h0
  exact ⟨h, lt_of_lt_of_le hmin h⟩

theorem C4_witness :
    wCfg.zoom_min ≤
        (applyZooms wCfg (Camera.init 1) [ZoomOp.zout, ZoomOp.zout, ZoomOp.zin]).zoom ∧
      0 < (applyZooms wCfg (Camera.init 1) [ZoomOp.zout, ZoomOp.zout, ZoomOp.zin]).zoom :=
  C4_amended_zoom_bounded wCfg (Camera.init 1) [ZoomOp.zout, ZoomOp.zout, ZoomOp.zin]
    (by norm_num [wCfg]) (by norm_num [wCfg]) (by norm_num [wCfg, Camera.init])


/-! ### Claim theorems for the CLI layer -/

/-- C6 counterexample: `strtof` accepts more than base-10 decimal tokens,
so "returns a value exactly when the entire string is a valid in-range
base-10 float and nullopt in every other case" fails on the code.
`safe_stof` converts the whole token `inf` to a value (positive infinity)
and the whole token `0x10` — a hexadecimal literal — to the value 16, yet
neither string admits a base-10 decomposition at any value. -/
theorem C6_counterexample :
    safe_stof "inf" = some (FloatVal.inf false) ∧
    (∀ v : ℚ, ¬(IsFloatToken "inf" v ∧ floatInRange v)) ∧
    safe_stof "0x10" = some (FloatVal.fin 16) ∧
    (∀ v : ℚ, ¬(IsFloatToken "0x10" v ∧ floatInRange v)) := by
  refine ⟨rfl, ?_, ?_, ?_⟩
  · rintro v ⟨⟨w, g, m, i, f, ex, neg, e, hsplit, hspace, hsign, hman, hexp, _⟩, _⟩
    have hd : ['i', 'n', 'f'] = w ++ g ++ m ++ ex := hsplit
    have hw : w = [] := by
      cases w with
      | nil => rfl
      | cons c w' =>
        exfalso
        simp only [List.cons_append] at hd
        injection hd with h1 _
        have hsp := hspace c (List.mem_cons_self c w')
        rw [← h1] at hsp
        exact absurd hsp (by decide)
    subst hw
    simp only [List.nil_append] at hd
    have hg : g = [] := by
      rcases hsign with ⟨hg0, _⟩ | ⟨hg0, _⟩ | ⟨hg0, _⟩
      · exact hg0
      · exfalso
        subst hg0
        simp only [List.cons_append, List.nil_append] at hd
        injection hd with h1 _
        exact absurd h1 (by decide)
      · exfalso
        subst hg0
        simp only [List.cons_append, List.nil_append] at hd
        injection hd with h1 _
        exact absurd h1 (by decide)
    subst hg
    simp only [List.nil_append] at hd
    have hmne := mantissa_ne_nil hman
    have hmh := mantissa_head hman
    cases m with
    | nil => exact hmne rfl
    | cons c m' =>
      rw [List.cons_append] at hd
      injection hd with h1 _
      have hdig := hmh c rfl
      rw [← h1] at hdig
      rcases hdig with hh | hh
      · exact absurd hh (by decide)
      · exact absurd hh (by decide)
  · refine (safe_stof_iff "0x10" (FloatVal.fin 16)).mpr
      (Or.inl ⟨16, rfl, Or.inr ⟨[], [], 'x', ['1', '0'], [], false, ['1', '0'], [], 0,
        rfl, fun c hc => absurd hc (List.not_mem_nil c), Or.inl ⟨rfl, rfl⟩,
        Or.inl rfl,
        ⟨?_, fun c hc => absurd hc (List.not_mem_nil c), by simp,
          Or.inl ⟨rfl, rfl⟩⟩,
        Or.inl ⟨rfl, rfl⟩, ?_⟩, ?_, ?_⟩)
    · intro c hc
      simp only [List.mem_cons, List.not_mem_nil, or_false] at hc
      rcases hc with rfl | rfl <;> decide
    · have h16 : hexToNat ['1', '0'] = 16 := by decide
      simp [h16]
    · norm_num [floatMax]
    · norm_num [floatMax]
  · rintro v ⟨⟨w, g, m, i, f, ex, neg, e, hsplit, hspace, hsign, hman, hexp, _⟩, _⟩
    have hd : ['0', 'x', '1', '0'] = w ++ g ++ m ++ ex := hsplit
    have hw : w = [] := by
      cases w with
      | nil => rfl
      | cons c w' =>
        exfalso
        simp only [List.cons_append] at hd
        injection hd with h1 _
        have hsp := hspace c (List.mem_cons_self c w')
        rw [← h1] at hsp
        exact absurd hsp (by decide)
    subst hw
    simp only [List.nil_append] at hd
    have hg : g = [] := by
      rcases hsign with ⟨hg0, _⟩ | ⟨hg0, _⟩ | ⟨hg0, _⟩
      · exact hg0
      · exfalso
        subst hg0
        simp only [List.cons_append, List.nil_append] at hd
        injection hd with h1 _
        exact absurd h1 (by decide)
      · exfalso
        subst hg0
        simp only [List.cons_append, List.nil_append] at hd
        injection hd with h1 _
        exact absurd h1 (by decide)
    subst hg
    simp only [List.nil_append] at hd
    obtain ⟨hdi, hdf, hnemp, hshape⟩ := hman
    rcases hshape with ⟨hmi, hfnil⟩ | hmB
    · -- m is the digit string i
      rw [hmi] at hd
      cases i with
      | nil => exact hnemp ⟨rfl, hfnil⟩
      | cons c i' =>
        rw [List.cons_append] at hd
        injection hd with h1 h2
        cases i' with
        | nil =>
          rw [List.nil_append] at h2
          rcases hexp with ⟨hexnil, _⟩ | ⟨ec, g2, eds, eneg, hc2, _, _, _, hx2, _⟩
          · rw [hexnil] at h2
            exact List.noConfusion h2
          · rw [hx2] at h2
            injection h2 with h2a _
            rcases hc2 with rfl | rfl
            · exact absurd h2a (by decide)
            · exact absurd h2a (by decide)
        | cons c2 i'' =>
          rw [List.cons_append] at h2
          injection h2 with h2a _
          have hd2 : isDigitCh c2 = true :=
            hdi c2 (List.mem_cons_of_mem c (List.mem_cons_self c2 i''))
          rw [← h2a] at hd2
          exact absurd hd2 (by decide)
    · -- m is digits, a dot, and more digits
      rw [hmB] at hd
      cases i with
      | nil =>
        simp only [List.nil_append, List.cons_append] at hd
        injection hd with h1 _
        exact absurd h1 (by decide)
      | cons c i' =>
        simp only [List.cons_append] at hd
        injection hd with h1 h2
        cases i' with
        | nil =>
          simp only [List.nil_append, List.cons_append] at h2
          injection h2 with h2a _
          exact absurd h2a (by decide)
        | cons c2 i'' =>
          simp only [List.cons_append] at h2
          injection h2 with h2a _
          have hd2 : isDigitCh c2 = true :=
            hdi c2 (List.mem_cons_of_mem c (List.mem_cons_self c2 i''))
          rw [← h2a] at hd2
          exact absurd hd2 (by decide)

/-- C6 (amended): numeric argument parsing is total and fail-fast.
`safe_stoi` returns a value exactly when the entire string is a valid
in-range base-10 integer; `safe_stof` returns a value exactly when the
entire string is a valid float literal in one of the forms `strtof`
accepts — an in-range decimal or hexadecimal literal, or an infinity or
NaN spelling — and `none` in every other case, exceptions of the
underlying conversions being mapped to `none`; and `parse_args` exits with
status 1 when the zoom value is missing, when the zoom token is invalid,
or when a consumed animation-speed token is invalid. -/
theorem C6_amended_numeric_parsing :
    (∀ (s : String) (v : ℤ), safe_stoi s = some v ↔ IsIntToken s v ∧ intInRange v) ∧
    (∀ (s : String) (fv : FloatVal), safe_stof s = some fv ↔ IsCFloatToken s fv) ∧
    (∀ a : Args, parseLoop a ["-z"] = Except.error 1) ∧
    (∀ (a : Args) (v : String) (rest : List String), safe_stof v = none →
      parseLoop a ("-z" :: v :: rest) = Except.error 1) ∧
    (∀ (a : Args) (v : String) (rest : List String), strHead v ≠ '-' →
      safe_stof v = none → parseLoop a ("-a" :: v :: rest) = Except.error 1) := by
  refine ⟨safe_stoi_iff, safe_stof_iff, fun a => rfl, ?_, ?_⟩
  · intro a v rest h
    simp only [parseLoop, h]
    rfl
  · intro a v rest h1 h2
    simp only [parseLoop, h2, if_pos h1]
    rfl

theorem C6_witness :
    safe_stoi "42" = some 42 ∧
    IsCFloatToken "inf" (FloatVal.inf false) ∧
    parseLoop (Args.init 35 1) ["-z"] = Except.error 1 ∧
    parseLoop (Args.init 35 1) ["-z", "abc"] = Except.error 1 ∧
    parseLoop (Args.init 35 1) ["-a", "abc"] = Except.error 1 := by
  have habc : safe_stof "abc" = none := rfl
  refine ⟨?_, (C6_amended_numeric_parsing.2.1 "inf" (FloatVal.inf false)).mp rfl,
    C6_amended_numeric_parsing.2.2.1 (Args.init 35 1),
    C6_amended_numeric_parsing.2.2.2.1 (Args.init 35 1) "abc" [] habc,
    C6_amended_numeric_parsing.2.2.2.2 (Args.init 35 1) "abc" []
      (by decide) habc⟩
  refine (C6_amended_numeric_parsing.1 "42" 42).mpr
    ⟨⟨[], [], ['4', '2'], false, rfl, fun c hc => absurd hc (List.not_mem_nil c),
      Or.inl ⟨rfl, rfl⟩, by simp, ?_, ?_⟩, by norm_num [intInRange]⟩
  · intro c hc
    simp only [List.mem_cons, List.not_mem_nil, or_false] at hc
    rcases hc with rfl | rfl <;> decide
  · have h42 : digitsToNat ['4', '2'] = 42 := by decide
    simp [h42]

/-- C10: on `-a`/`--animate`, a following token is consumed and parsed as
the animation speed only when it exists and does not start with `-`.  A
token starting with `-` (in particular a negative rate) is never consumed:
the speed field keeps its current (default) value and the token is
processed as the next argument.  A consumed token that does not parse exits
with status 1. -/
theorem C10_animate_speed_consumption :
    (∀ (a : Args) (v : String) (rest : List String), strHead v = '-' →
      parseLoop a ("-a" :: v :: rest) =
        parseLoop { a with animate := true } (v :: rest)) ∧
    (∀ a : Args, parseLoop a ["-a"] = parseLoop { a with animate := true } []) ∧
    (∀ (a : Args) (v : String) (rest : List String) (sp : FloatVal), strHead v ≠ '-' →
      safe_stof v = some sp →
      parseLoop a ("-a" :: v :: rest) =
        parseLoop { a with animate := true, speed := sp } rest) ∧
    (∀ (a : Args) (v : String) (rest : List String), strHead v ≠ '-' →
      safe_stof v = none →
      parseLoop a ("-a" :: v :: rest) = Except.error 1) := by
  refine ⟨?_, fun a => rfl, ?_, ?_⟩
  · intro a v rest h
    have hnn : ¬(strHead v ≠ '-') := fun hne => hne h
    simp only [parseLoop, if_neg hnn]
    rfl
  · intro a v rest sp h1 h2
    simp only [parseLoop, h2, if_pos h1]
    rfl
  · intro a v rest h1 h2
    simp only [parseLoop, h2, if_pos h1]
    rfl

theorem C10_witness :
    parseLoop (Args.init 35 1) ["-a", "--flip", "f.obj"] =
      parseLoop { Args.init 35 1 with animate := true } ["--flip", "f.obj"] ∧
    parseLoop (Args.init 35 1) ["-a", "2.5", "f.obj"] =
      parseLoop { Args.init 35 1 with animate := true, speed := FloatVal.fin (5/2) }
        ["f.obj"] := by
  have h25 : safe_stof "2.5" = some (FloatVal.fin (5/2)) := by
    refine (safe_stof_iff "2.5" (FloatVal.fin (5/2))).mpr
      (Or.inl ⟨5/2, rfl, Or.inl ⟨[], [], ['2', '.', '5'], ['2'], ['5'],
        [], false, 0, rfl, fun c hc => absurd hc (List.not_mem_nil c),
        Or.inl ⟨rfl, rfl⟩,
        ⟨?_, ?_, by simp, Or.inr rfl⟩, Or.inl ⟨rfl, rfl⟩, ?_⟩, ?_, ?_⟩)
    · intro c hc
      simp only [List.mem_singleton] at hc
      subst hc; decide
    · intro c hc
      simp only [List.mem_singleton] at hc
      subst hc; decide
    · have h : digitsToNat ['2', '5'] = 25 := by decide
      simp [h]
      norm_num
    · norm_num [floatMax]
    · norm_num [floatMax]
  exact ⟨C10_animate_speed_consumption.1 (Args.init 35 1) "--flip" ["f.obj"] rfl,
    C10_animate_speed_consumption.2.2.1 (Args.init 35 1) "2.5" ["f.obj"]
      (FloatVal.fin (5/2)) (by decide) h25⟩


/-! ### Color registration and the render loop -/

theorem initColorsGo_mem (colors color_pairs : ℤ) :
    ∀ (i : ℕ) (ms : List Material) (pr : ℤ),
      pr ∈ initColorsGo colors color_pairs i ms ↔
        ((i : ℤ) + 1 ≤ pr ∧ pr ≤ (i : ℤ) + ms.length ∧ pr < colors ∧
          pr < color_pairs) := by
  intro i ms
  induction ms generalizing i with
  | nil =>
    intro pr
    simp only [initColorsGo, List.not_mem_nil, false_iff, List.length_nil]
    push_neg
    intro h1 h2
    omega
  | cons m ms ih =>
    intro pr
    simp only [initColorsGo, List.length_cons]
    split_ifs with hbr
    · constructor
      · intro h
        exact absurd h (List.not_mem_nil pr)
      · intro h
        exfalso
        omega
    · push_neg at hbr
      simp only [List.mem_cons, ih]
      constructor
      · rintro (rfl | ⟨h1, h2, h3, h4⟩)
        · refine ⟨le_refl _, ?_, hbr.1, hbr.2⟩
          push_cast
          omega
        · refine ⟨by omega, ?_, h3, h4⟩
          push_cast
          push_cast at h2
          omega
      · rintro ⟨h1, h2, h3, h4⟩
        by_cases he : pr = (i : ℤ) + 1
        · exact Or.inl he
        · refine Or.inr ⟨by omega, ?_, h3, h4⟩
          push_cast at h2 ⊢
          omega

/-- C7: with color enabled, the pair registered for material index `i` is
`i + 1` — a pair number is registered exactly when it is in `[1, count]`
and strictly below both `COLORS` and `COLOR_PAIRS`, so materials whose pair
number reaches either limit are skipped without any failure — and the
selector `printw` uses for a cell holding material `m` is `m + 1`. -/
theorem C7_color_pair_selection (has_colors can_change_color : Bool)
    (colors color_pairs : ℤ) (ms : List Material)
    (hc : has_colors = true) (hcc : can_change_color = true) :
    (∀ pr : ℤ,
      pr ∈ init_colors has_colors can_change_color colors color_pairs ms ↔
        (1 ≤ pr ∧ pr ≤ ms.length ∧ pr < colors ∧ pr < color_pairs)) ∧
    (∀ (b : Buffer) (colorEnabled : Bool) (k : ℕ) (p : Pixel),
      b.pixels[k]? = some p →
      (b.printwTrace colorEnabled)[k]? =
        some (p.c, if colorEnabled then p.material.map (fun m => m + 1)
          else none)) := by
  constructor
  · intro pr
    subst hc
    subst hcc
    have h := initColorsGo_mem colors color_pairs 0 ms pr
    simpa [init_colors] using h
  · intro b colorEnabled k p hp
    simp [Buffer.printwTrace, List.getElem?_map, hp]

theorem C7_witness :
    (2 : ℤ) ∈ init_colors true true 8 8 wMats ↔
      (1 ≤ (2 : ℤ) ∧ (2 : ℤ) ≤ wMats.length ∧ (2 : ℤ) < 8 ∧ (2 : ℤ) < 8) :=
  (C7_color_pair_selection true true 8 8 wMats rfl rfl).1 2

theorem geom_draw_projection (b : Buffer) (q : Projection) (c : Char) (m : ℤ) :
    (b.draw_projection q c m).geom = b.geom := by
  simp [Buffer.geom, Buffer.draw_projection, List.length_mapIdx]

theorem geom_clear (b : Buffer) : b.clear.geom = b.geom := by
  simp [Buffer.geom, Buffer.clear]

theorem geom_render (faces : List (Projection × Char × ℤ)) :
    ∀ b : Buffer, (Renderer.render faces b).geom = b.geom := by
  induction faces with
  | nil => intro b; rfl
  | cons f fs ih =>
    intro b
    have h1 : Renderer.render (f :: fs) b =
        Renderer.render fs (b.draw_projection f.1 f.2.1 f.2.2) := rfl
    rw [h1, ih, geom_draw_projection]

/-- C8: a `KEY_RESIZE` event discards the frame buffer and constructs a
whole new one: character dimensions are the new terminal columns and rows,
`logical_y` stays 2.0 and `logical_x` is recomputed as
`logical_y * cols / (rows * CHAR_ASPECT_RATIO)`; on every other iteration
the buffer keeps its dimensions, logical sizes, scale factors, and grid
size — it is reused, not reconstructed. -/
theorem C8_resize_reconstructs_buffer (cfg : CamCfg) (charAspect speed dt : ℚ)
    (faces : List (Projection × Char × ℤ)) (st : LoopState) :
    (∀ rows cols : ℕ,
      (loopIter cfg charAspect speed dt faces st (Key.resize rows cols)).1.buf =
        Buffer.create cols rows (2 * (cols : ℚ) / ((rows : ℚ) * charAspect)) 2) ∧
    (∀ k : Key, (∀ rows cols : ℕ, k ≠ Key.resize rows cols) →
      (loopIter cfg charAspect speed dt faces st k).1.buf.geom = st.buf.geom) := by
  constructor
  · intro rows cols
    rfl
  · intro k hk
    cases k with
    | resize rows cols => exact absurd rfl (hk rows cols)
    | ch c =>
      show (if c = 'q' ∨ c = 'Q' then _ else if c = '\t' then _ else _ :
          LoopState).buf.geom = _
      split_ifs <;> simp only [geom_render, geom_clear]
    | err =>
      show (Renderer.render faces _).geom = _
      split_ifs <;> simp only [geom_render, geom_clear]
    | left =>
      show (Renderer.render faces _).geom = _
      split_ifs <;> simp only [geom_render, geom_clear]
    | right =>
      show (Renderer.render faces _).geom = _
      split_ifs <;> simp only [geom_render, geom_clear]
    | up =>
      show (Renderer.render faces _).geom = _
      split_ifs <;> simp only [geom_render, geom_clear]
    | down =>
      show (Renderer.render faces _).geom = _
      split_ifs <;> simp only [geom_render, geom_clear]

theorem C8_witness :
    (loopIter wCfg 1 0 0 [] wState Key.err).1.buf.geom = wState.buf.geom :=
  (C8_resize_reconstructs_buffer wCfg 1 0 0 [] wState).2 Key.err
    (fun _ _ h => Key.noConfusion h)

/-- C9: in every loop iteration the buffer operations happen in the fixed
order `clear`, `Renderer::render`, `printw` (then the optional HUD), then
`refresh`; `clear` is the first action of the frame and occurs exactly
once, before any drawing. -/
theorem C9_frame_action_order (cfg : CamCfg) (charAspect speed dt : ℚ)
    (faces : List (Projection × Char × ℤ)) (st : LoopState) (k : Key) :
    (loopIter cfg charAspect speed dt faces st k).2.head? = some Action.clearA ∧
    (loopIter cfg charAspect speed dt faces st k).2.count Action.clearA = 1 ∧
    (loopIter cfg charAspect speed dt faces st k).2.count Action.renderA = 1 ∧
    (loopIter cfg charAspect speed dt faces st k).2.count Action.printwA = 1 ∧
    (loopIter cfg charAspect speed dt faces st k).2.count Action.refreshA = 1 ∧
    (loopIter cfg charAspect speed dt faces st k).2.indexOf Action.clearA <
      (loopIter cfg charAspect speed dt faces st k).2.indexOf Action.renderA ∧
    (loopIter cfg charAspect speed dt faces st k).2.indexOf Action.renderA <
      (loopIter cfg charAspect speed dt faces st k).2.indexOf Action.printwA ∧
    (loopIter cfg charAspect speed dt faces st k).2.indexOf Action.printwA <
      (loopIter cfg charAspect speed dt faces st k).2.indexOf Action.refreshA := by
  rcases st with ⟨b, cam, hud, rot⟩
  have h2 : (loopIter cfg charAspect speed dt faces ⟨b, cam, hud, rot⟩ k).2 =
      [Action.clearA, Action.renderA, Action.printwA] ++
        (if hud then [Action.hudA] else []) ++ [Action.refreshA] := by
    cases rot <;> rfl
  rw [h2]
  cases hud <;> exact (by decide)

end Objcurses
